import Mathlib

/-!
Verification development for the PostFlows Font Fallback script
(src/font-fallback.py). The tag codec and the replacement/restoration
logic are shallowly embedded over `List Char`; Python strings become
char lists, `dict`s become association lists in insertion order,
and the host clock (`datetime.now().isoformat()`) becomes an explicit
timestamp argument.
-/

set_option maxHeartbeats 1000000
set_option maxRecDepth 100000

/-- Whitespace predicate matching Python `str.strip` / regex `\s`
(the characters space, tab, newline, carriage return, vertical tab, form feed). -/
def pyIsSpace (c : Char) : Bool :=
  c = ' ' || c = '\t' || c = '\n' || c = '\r' || c = '\x0b' || c = '\x0c'

/-- Python `str.strip()`: drop whitespace from both ends. -/
def pyStrip (cs : List Char) : List Char :=
  ((cs.dropWhile pyIsSpace).reverse.dropWhile pyIsSpace).reverse

/-- Python substring containment `pat in cs`. -/
def containsSub (pat : List Char) : List Char → Bool
  | [] => pat.isEmpty
  | c :: rest => pat.isPrefixOf (c :: rest) || containsSub pat rest

/-- Python `cs.replace(pat, rep)`: replace every (left-to-right, non-overlapping)
occurrence of `pat` by `rep`. The script only ever calls this with a nonempty
pattern, so the empty-pattern case just returns the input. -/
def pyReplace (cs pat rep : List Char) : List Char :=
  if h : pat = [] then cs
  else if hp : pat.isPrefixOf cs then rep ++ pyReplace (cs.drop pat.length) pat rep
  else
    match cs with
    | [] => []
    | c :: rest => c :: pyReplace rest pat rep
termination_by cs.length
decreasing_by
  · have hlen : pat.length ≤ cs.length := by
      have := (@List.isPrefixOf_iff_prefix Char _ _ pat cs).mp hp
      exact this.length_le
    have hpos : 0 < pat.length := List.length_pos.mpr h
    have hcs : 0 < cs.length := lt_of_lt_of_le hpos hlen
    simp only [List.length_drop]
    omega
  · simp_arith

/-- Python `cs.split('\n')` (note `"".split('\n') == [""]`). -/
def splitNL : List Char → List (List Char)
  | [] => [[]]
  | c :: cs =>
    if c = '\n' then [] :: splitNL cs
    else
      match splitNL cs with
      | [] => [[c]]
      | l :: ls => (c :: l) :: ls

/-- Python `'\n'.join(lines)`. -/
def joinNL : List (List Char) → List Char
  | [] => []
  | [l] => l
  | l :: ls => l ++ '\n' :: joinNL ls

/-- Semantics of `re.search(key + "(.+)", text)` restricted to a literal `key`:
find the first position where `key` occurs followed by at least one
non-newline character, and return the run of non-newline characters after it.
This is exactly how `extract_tag_value` (src lines 399-403) uses `re.search`,
with `key` being `param_name + ": "`. -/
def searchKeyVal (key : List Char) : List Char → Option (List Char)
  | [] => none
  | c :: rest =>
    if key.isPrefixOf (c :: rest) then
      let v := ((c :: rest).drop key.length).takeWhile (fun x => x ≠ '\n')
      if v = [] then searchKeyVal key rest else some v
    else searchKeyVal key rest

/-- Model of `extract_tag_value(text, param_name)` (src lines 399-403):
regex search for `param_name + ": (.+)"`, returning the stripped capture. -/
def extract_tag_value (text param : List Char) : Option (List Char) :=
  (searchKeyVal (param ++ [':', ' ']) text).map pyStrip

/-- Opening marker of a restoration tag. -/
def openMarker : List Char := ("[PostFlows_FONT_RESTORE]").toList

/-- Closing marker of a restoration tag. -/
def closeMarker : List Char := ("[/PostFlows_FONT_RESTORE]").toList

/-- The literal `TextBlock:` recognized at the start of a stripped line. -/
def textBlockKey : List Char := ("TextBlock:").toList

/-- Parameter name `original_font`. -/
def pOriginalFont : List Char := ("original_font").toList

/-- Parameter name `original_style`. -/
def pOriginalStyle : List Char := ("original_style").toList

/-- Parameter name `replaced_with`. -/
def pReplacedWith : List Char := ("replaced_with").toList

/-- Parameter name `timestamp`. -/
def pTimestamp : List Char := ("timestamp").toList

/-- Parameter name `restore_id`. -/
def pRestoreId : List Char := ("restore_id").toList

/-- One `key: value` line of the tag template. -/
def fieldLine (p v : List Char) : List Char := p ++ ':' :: ' ' :: v

/-- Body of an instantiated `RESTORE_TAG_TEMPLATE` (src lines 103-110) after
its leading newline: the marker-delimited block of `key: value` lines. -/
def tagBody (of' os' rf rs ts rid : List Char) : List Char :=
  openMarker ++
    '\n' :: (fieldLine pOriginalFont of' ++
      '\n' :: (fieldLine pOriginalStyle os' ++
        '\n' :: (fieldLine pReplacedWith (rf ++ '|' :: rs) ++
          '\n' :: (fieldLine pTimestamp ts ++
            '\n' :: (fieldLine pRestoreId rid ++
              '\n' :: closeMarker)))))

/-- Instantiated `RESTORE_TAG_TEMPLATE` (src lines 103-110) before the final
`.strip()`; it begins with the template's leading newline. -/
def restoreTagTemplate (of' os' rf rs ts rid : List Char) : List Char :=
  '\n' :: tagBody of' os' rf rs ts rid

/-- Head-character test used to state that a string starts (or, applied to the
reversal, ends) with a non-whitespace character. -/
def headNonspace : List Char → Bool
  | [] => true
  | c :: _ => !pyIsSpace c

/-- Well-formedness of one tag field value for the round-trip statements: the
value is nonempty, starts and ends with non-whitespace, contains no newline
and no `|` separator, and does not contain the tag markers, the `TextBlock:`
prefix or any of the five `key: ` strings of the wire format (font names,
style names, ISO timestamps and session ids all satisfy this). -/
def cleanField (s : List Char) : Bool :=
  decide (s ≠ []) && headNonspace s && headNonspace s.reverse &&
  decide ('\n' ∉ s) && decide ('|' ∉ s) &&
  !containsSub openMarker s && !containsSub closeMarker s &&
  !containsSub textBlockKey s &&
  !containsSub (pOriginalFont ++ [':', ' ']) s &&
  !containsSub (pOriginalStyle ++ [':', ' ']) s &&
  !containsSub (pReplacedWith ++ [':', ' ']) s &&
  !containsSub (pTimestamp ++ [':', ' ']) s &&
  !containsSub (pRestoreId ++ [':', ' ']) s

/-- Well-formedness of all six field values of one restoration tag. -/
def cleanTag (of' os' rf rs rid ts : List Char) : Bool :=
  cleanField of' && cleanField os' && cleanField rf && cleanField rs &&
  cleanField rid && cleanField ts

/-- Model of `create_restore_tag` (src lines 361-370): fill the template and
strip it. The source reads the timestamp from `datetime.now().isoformat()`;
here the clock value `ts` is an explicit argument. -/
def create_restore_tag (of' os' rf rs rid ts : List Char) : List Char :=
  pyStrip (restoreTagTemplate of' os' rf rs ts rid)

/-- One decoded restoration tag, as produced by
`parse_all_restore_tags_from_comments` (src lines 728-819). Keys absent from
the Python dict (`replacement_font` when `replaced_with` is missing or has no
separator, `text_block` for legacy tags) are modeled as `none`. -/
structure TagData where
  original_font : List Char
  original_style : List Char
  replacement_font : Option (List Char)
  replacement_style : Option (List Char)
  text_block : Option (List Char)
  full_tag : List Char
deriving DecidableEq

/-- From the collected block lines, extract fields and build the zero-or-one
tags the block contributes (src lines 757-779 and 791-810). A tag is emitted
only when both `original_font` and `original_style` are present and nonempty
after stripping; the `replaced_with` field is split at its first `|` only when
present, truthy and containing `|`. -/
def buildTagData (tb : Option (List Char)) (contentLines : List (List Char)) : List TagData :=
  let fullContent := joinNL contentLines
  let ofv := extract_tag_value fullContent pOriginalFont
  let osv := extract_tag_value fullContent pOriginalStyle
  let rwv := extract_tag_value fullContent pReplacedWith
  let rfrs : Option (List Char) × Option (List Char) :=
    match rwv with
    | some w =>
      if w ≠ [] ∧ '|' ∈ w then
        (some (w.takeWhile (fun c => c ≠ '|')), some ((w.dropWhile (fun c => c ≠ '|')).tail))
      else (none, none)
    | none => (none, none)
  match ofv, osv with
  | some a, some b =>
    if a ≠ [] ∧ b ≠ [] then
      [{ original_font := a, original_style := b, replacement_font := rfrs.1,
         replacement_style := rfrs.2, text_block := tb,
         full_tag :=
           match tb with
           | some t => joinNL ((textBlockKey ++ ' ' :: t) :: contentLines)
           | none => fullContent }]
    else []
  | _, _ => []

/-- Advance to the first line containing the opening marker, keeping the rest
(models the `while ... '[PostFlows_FONT_RESTORE]' not in lines[i]` scan,
src lines 745-746). -/
def findOpenSuffix : List (List Char) → Option (List (List Char))
  | [] => none
  | l :: rest => if containsSub openMarker l then some (l :: rest) else findOpenSuffix rest

/-- Collect lines up to and including the first line containing the closing
marker, returning the collected block and the remaining lines; `none` when the
closing marker never appears (src lines 750-756 and 784-790). -/
def collectTag : List (List Char) → Option (List (List Char) × List (List Char))
  | [] => none
  | l :: rest =>
    if containsSub closeMarker l then some ([l], rest)
    else
      match collectTag rest with
      | some (content, rem) => some (l :: content, rem)
      | none => none

/-- Line-scanning loop of `parse_all_restore_tags_from_comments`
(src lines 735-814), as a recursion over the list of lines. -/
def parseLines : List (List Char) → List TagData
  | [] => []
  | l :: rest =>
    let sl := pyStrip l
    if textBlockKey.isPrefixOf sl then
      let tb := pyStrip (pyReplace sl textBlockKey [])
      match hfo : findOpenSuffix rest with
      | none => []
      | some s =>
        match hct : collectTag s with
        | some (content, rem) => buildTagData (some tb) content ++ parseLines rem
        | none => parseLines s.tail
    else if containsSub openMarker sl then
      match hct : collectTag (l :: rest) with
      | some (content, rem) => buildTagData none content ++ parseLines rem
      | none => parseLines rest
    else parseLines rest
termination_by ls => ls.length
decreasing_by
  all_goals
    have hcol : ∀ (xs : List (List Char)) c r, collectTag xs = some (c, r) →
        r.length < xs.length := by
      intro xs
      induction xs with
      | nil => intro c r h; simp [collectTag] at h
      | cons a as ih =>
        intro c r h
        by_cases hc : containsSub closeMarker a = true
        · simp only [collectTag, hc, if_true] at h
          simp only [Option.some.injEq, Prod.mk.injEq] at h
          obtain ⟨h1, h2⟩ := h
          subst h2
          simp
        · simp only [collectTag, hc] at h
          simp only [Bool.false_eq_true, if_false] at h
          cases heq : collectTag as with
          | none => rw [heq] at h; simp at h
          | some p =>
            rw [heq] at h
            simp only [Option.some.injEq] at h
            have h3 := ih p.1 p.2 (by rw [heq])
            have hr : r = p.2 := by
              have := congrArg Prod.snd h
              simpa using this.symm
            simp only [hr, List.length_cons]
            omega
  all_goals
    have hfnd : ∀ (xs : List (List Char)) s, findOpenSuffix xs = some s →
        s.length ≤ xs.length ∧ s ≠ [] := by
      intro xs
      induction xs with
      | nil => intro s h; simp [findOpenSuffix] at h
      | cons a as ih =>
        intro s h
        by_cases hc : containsSub openMarker a = true
        · simp only [findOpenSuffix, hc, if_true, Option.some.injEq] at h
          subst h
          exact ⟨le_refl _, by simp⟩
        · simp only [findOpenSuffix, hc] at h
          simp only [Bool.false_eq_true, if_false] at h
          have h4 := ih s h
          exact ⟨Nat.le_succ_of_le h4.1, h4.2⟩
  all_goals simp only [List.length_cons, List.length_tail]
  all_goals
    first
    | (have ha := (hfnd _ _ hfo).1
       have hb := hcol _ _ _ hct
       omega)
    | (have ha := hfnd _ _ hfo
       have hb : 0 < s.length := List.length_pos.mpr ha.2
       omega)
    | (have hb := hcol _ _ _ hct
       simp only [List.length_cons] at hb
       omega)
    | omega

/-- Model of `parse_all_restore_tags_from_comments` (src lines 728-819),
taking the node's `Comments` string directly. -/
def parse_all_restore_tags_from_comments (comments : List Char) : List TagData :=
  parseLines (splitNL comments)

/-- Indices of `'\n'` inside a char list (ascending). -/
def nlIndices (w : List Char) : List Nat :=
  (List.range w.length).filter (fun i => w.getD i ' ' = '\n')

/-- Remainders after matching the regex fragment `\s*\n` at the start of `cs`,
ordered by greediness (longest `\s*` first). A `\s*\n` match must end at a
newline lying inside the maximal whitespace prefix of `cs`. -/
def starNLCandidates (cs : List Char) : List (List Char) :=
  ((nlIndices (cs.takeWhile pyIsSpace)).reverse).map (fun i => cs.drop (i + 1))

/-- Backtracking over the first `\s*\n` choice: succeed with the remainder of
the greediest overall match of `\s*\n\s*\n`. -/
def matchTripleGo : List (List Char) → Option (List Char)
  | [] => none
  | r :: rs =>
    match (starNLCandidates r).head? with
    | some rem => some rem
    | none => matchTripleGo rs

/-- Remainder after the greedy match of `\s*\n\s*\n` at the start of `cs`
(the part of the pattern `\n\s*\n\s*\n` after its leading newline), or `none`
when the pattern does not match here. -/
def matchTripleNL (cs : List Char) : Option (List Char) :=
  matchTripleGo (starNLCandidates cs)

/-- Model of `re.sub(r'\n\s*\n\s*\n', '\n\n', cs)` (src lines 418 and 832):
scan left to right; at each newline try the greedy match of the rest of the
pattern; on success emit two newlines and resume after the match. -/
def pyCollapseSub (cs : List Char) : List Char :=
  match cs with
  | [] => []
  | c :: rest =>
    if c = '\n' then
      match hm : matchTripleNL rest with
      | some rem => '\n' :: '\n' :: pyCollapseSub rem
      | none => c :: pyCollapseSub rest
    else c :: pyCollapseSub rest
termination_by cs.length
decreasing_by
  all_goals
    have hcand : ∀ (t : List Char) r, r ∈ starNLCandidates t → r.length < t.length := by
      intro t r hr
      simp only [starNLCandidates, List.mem_map, List.mem_reverse] at hr
      obtain ⟨i, hi, hdrop⟩ := hr
      simp only [nlIndices, List.mem_filter, List.mem_range] at hi
      have hwt : (t.takeWhile pyIsSpace).length ≤ t.length := by
        have := List.IsPrefix.length_le (List.takeWhile_prefix (l := t) (p := pyIsSpace))
        exact this
      have : i < t.length := lt_of_lt_of_le hi.1 hwt
      subst hdrop
      simp only [List.length_drop]
      omega
  all_goals
    have hgo : ∀ (l : List (List Char)) rem, matchTripleGo l = some rem →
        ∃ r ∈ l, rem ∈ starNLCandidates r := by
      intro l
      induction l with
      | nil => intro rem h; simp [matchTripleGo] at h
      | cons r rs ih =>
        intro rem h
        simp only [matchTripleGo] at h
        cases hh : (starNLCandidates r).head? with
        | some rem2 =>
          rw [hh] at h
          simp only [Option.some.injEq] at h
          subst h
          refine ⟨r, List.mem_cons_self _ _, List.mem_of_mem_head? ?_⟩
          rw [hh]
          simp
        | none =>
          rw [hh] at h
          obtain ⟨r2, hr2, hrem⟩ := ih rem h
          exact ⟨r2, List.mem_cons_of_mem _ hr2, hrem⟩
  all_goals simp only [List.length_cons]
  all_goals
    first
    | omega
    | (obtain ⟨r1, hr1, hrem1⟩ := hgo _ _ hm
       have h1 := hcand _ _ hrem1
       have h2 := hcand _ _ hr1
       omega)

/-- Model of `remove_specific_restore_tag` (src lines 821-839), acting on the
owning node's comment string: when the tag's exact text occurs, delete every
occurrence, collapse runs of three-plus newline-separated blank stretches to a
double newline, and strip the edges; otherwise leave the comments unchanged. -/
def remove_specific_restore_tag (comments fullTag : List Char) : List Char :=
  if containsSub fullTag comments then
    pyStrip (pyCollapseSub (pyReplace comments fullTag []))
  else comments

/-- One Fusion tool of a composition: display name, `TOOLS_RegID` attribute,
the `Font` / `Style` inputs (absent inputs are `none`) and the `Comments`
input. -/
structure Tool where
  name : List Char
  regId : List Char
  font : Option (List Char)
  style : Option (List Char)
  comments : List Char
deriving DecidableEq

/-- The `TOOLS_RegID` of group containers. -/
def groupOperatorId : List Char := ("GroupOperator").toList

/-- The `TOOLS_RegID` of macro containers. -/
def macroOperatorId : List Char := ("MacroOperator").toList

/-- The substring `Group` used by the container heuristics. -/
def groupSub : List Char := ("Group").toList

/-- The substring `Macro` used by the container heuristics. -/
def macroSub : List Char := ("Macro").toList

/-- Predicate of src lines 444-451: a tool qualifies as a parent container for
`find_parent_group_or_macro` when its reg-id is `GroupOperator` or
`MacroOperator`, or merely contains `Group` or `Macro`. -/
def isValidParent (t : Tool) : Bool :=
  t.regId == groupOperatorId || t.regId == macroOperatorId ||
    containsSub groupSub t.regId || containsSub macroSub t.regId

/-- Model of `find_parent_group_or_macro` (src lines 425-463): the first
tool of the composition satisfying `isValidParent`. The source's
`target_node` parameter is never consulted, so it does not appear here. -/
def find_parent_group (tools : List Tool) : Option Tool :=
  (tools.filter isValidParent).head?

/-- Predicate of src lines 479-483: the containers counted by
`should_use_node_comments` (note the asymmetry with `isValidParent`:
no `Macro` substring clause, and a bare reg-id `Group` is not counted). -/
def isParentContainer (t : Tool) : Bool :=
  t.regId == groupOperatorId || t.regId == macroOperatorId ||
    (containsSub groupSub t.regId && !(t.regId == groupSub))

/-- Model of `should_use_node_comments` (src lines 465-492): write tags to the
node itself exactly when the composition holds no counted container. -/
def should_use_node_comments (tools : List Tool) : Bool :=
  tools.countP isParentContainer == 0

/-- The element whose comments receive a replaced node's restoration tag
(src lines 917-946): the parent path is taken only when a parent was found
and `should_use_node_comments` is false; otherwise the node hosts its own tag. -/
def restore_tag_destination (tools : List Tool) (node : Tool) : Tool :=
  match find_parent_group tools with
  | some p => if should_use_node_comments tools then node else p
  | none => node

/-- Lookup in the installed-font catalog (`get_installed_fonts`), modeled as an
association list from font name to the enumeration of its styles. -/
def lookupFont : List (List Char × List (List Char)) → List Char → Option (List (List Char))
  | [], _ => none
  | e :: rest, f => if e.1 = f then some e.2 else lookupFont rest f

/-- The literal `Regular`. -/
def regularStyle : List Char := ("Regular").toList

/-- Model of `check_font_style_availability` (src lines 138-160). -/
def check_font_style_availability (installed : List (List Char × List (List Char)))
    (f s : List Char) : Bool :=
  match lookupFont installed f with
  | none => false
  | some sts => decide (s ∈ sts)

/-- The classification reason `font missing`. -/
def fontMissingReason : List Char := ("font missing").toList

/-- The classification reason `style missing`. -/
def styleMissingReason : List Char := ("style missing").toList

/-- Per-slot classification of `replace_missed_fonts` (src lines 891-900):
`some reason` when the slot needs replacement, `none` when it is left alone. -/
def classify_slot (installed : List (List Char × List (List Char)))
    (f s : List Char) : Option (List Char) :=
  match lookupFont installed f with
  | none => some fontMissingReason
  | some sts => if s ∈ sts then none else some styleMissingReason

/-- Per-block classification of `replace_multitext_fonts` (src lines
1054-1063), which reads the style set through `.get(original_font, set())`. -/
def classify_slot_multi (installed : List (List Char × List (List Char)))
    (f s : List Char) : Option (List Char) :=
  if lookupFont installed f = none then some fontMissingReason
  else if s ∈ (lookupFont installed f).getD [] then none
  else some styleMissingReason

/-- Current style of a Text+ node: `node.Style[1] if node.Style else "Regular"`
(src lines 536 and 889). -/
def nodeStyle (t : Tool) : List Char :=
  match t.style with
  | some s => s
  | none => regularStyle

/-- Entry queued under `parent_replacements` for a deferred parent-comment
write (src lines 923-935). -/
structure ReplacementRecord where
  parentName : List Char
  nodeName : List Char
  original_font : List Char
  original_style : List Char
  reason : List Char
  restore_tag : List Char
deriving DecidableEq

/-- Appending text to a possibly-empty comment field (src lines 939-943). -/
def appendComments (cur tag : List Char) : List Char :=
  if cur ≠ [] then cur ++ '\n' :: tag else tag

/-- Per-node body of the Text+ replacement loop of `replace_missed_fonts`
(src lines 886-953): classify the slot; when replacement is needed, build the
restoration tag, either queue a parent write or append the tag to the node's
own comments, and commit the replacement font and style. Returns the updated
node and the queued parent entry, if any. -/
def replace_text_node_step (installed : List (List Char × List (List Char)))
    (rf rs rid ts : List Char) (tools : List Tool) (node : Tool) :
    Tool × Option ReplacementRecord :=
  match node.font with
  | none => (node, none)
  | some of' =>
    let os' := nodeStyle node
    match classify_slot installed of' os' with
    | none => (node, none)
    | some reason =>
      let tag := create_restore_tag of' os' rf rs rid ts
      match find_parent_group tools with
      | some p =>
        if should_use_node_comments tools then
          ({ node with comments := appendComments node.comments tag,
                       font := some rf, style := some rs }, none)
        else
          ({ node with font := some rf, style := some rs },
            some ⟨p.name, node.name, of', os', reason, tag⟩)
      | none =>
        ({ node with comments := appendComments node.comments tag,
                     font := some rf, style := some rs }, none)

/-- Resolution of the user-requested replacement pair performed once per
invocation (src lines 854-869): abort (`none`) when the requested font is not
installed; fall back to the first enumerated style when the requested style is
not valid for it (or to `Regular` when the font has no styles at all). -/
def resolve_replacement_style (installed : List (List Char × List (List Char)))
    (rf rs : List Char) : Option (List Char) :=
  match lookupFont installed rf with
  | none => none
  | some sts =>
    if rs ∈ sts then some rs
    else
      match sts with
      | [] => some regularStyle
      | s0 :: _ => some s0

/-- Tags decoded from one node's comments, keyed by the owning node's name
(one entry of `nodes_with_tags`, kept in insertion order). -/
structure NodeTags where
  nodeName : List Char
  tags : List TagData
deriving DecidableEq

/-- A matched tag together with the name of the node owning its text. -/
structure FoundTag where
  tag : TagData
  sourceNodeName : List Char
deriving DecidableEq

/-- Replacement-side match test shared by both matchers (src lines 601-602 and
707-708). -/
def replacementMatches (t : TagData) (cf cs : List Char) : Bool :=
  t.replacement_font == some cf && t.replacement_style == some cs

/-- Inner loop of `find_matching_restore_tag_for_multitext` over one node's
tags (src lines 701-724). -/
def findMultiInTags (textBlock cf cs srcName : List Char) : List TagData → Option FoundTag
  | [] => none
  | t :: ts =>
    if replacementMatches t cf cs then
      match t.text_block with
      | some tb =>
        if tb ≠ [] then
          if tb = textBlock then some ⟨t, srcName⟩
          else findMultiInTags textBlock cf cs srcName ts
        else some ⟨t, srcName⟩
      | none => some ⟨t, srcName⟩
    else findMultiInTags textBlock cf cs srcName ts

/-- Model of `find_matching_restore_tag_for_multitext` (src lines 698-726).
The source's `node_name` parameter is never consulted in its body; it is kept
for signature fidelity. -/
def find_matching_restore_tag_for_multitext (nodeName textBlock cf cs : List Char) :
    List NodeTags → Option FoundTag
  | [] => none
  | n :: ns =>
    match findMultiInTags textBlock cf cs n.nodeName n.tags with
    | some r => some r
    | none => find_matching_restore_tag_for_multitext nodeName textBlock cf cs ns

/-- Flattening of `nodes_with_tags` into (owner name, tag) pairs in iteration
order (the nested loops of src lines 598-599). -/
def tagPairs (nwt : List NodeTags) : List (List Char × TagData) :=
  nwt.flatMap (fun n => n.tags.map (fun t => (n.nodeName, t)))

/-- Loop of `find_matching_restore_tag` (src lines 594-628) with its
`best_match` accumulator: an immediate return on an unscoped acceptance, a
scoped acceptance on `"textblock:" in full_tag`, and otherwise a remembered
first fallback candidate returned after the loop. -/
def findTPGo (nodeName cf cs : List Char) (tb? : Option (List Char)) :
    Option FoundTag → List (List Char × TagData) → Option FoundTag
  | best, [] => best
  | best, (src, t) :: rest =>
    if replacementMatches t cf cs then
      match tb? with
      | some tb =>
        if tb ≠ [] ∧ src = nodeName then
          if containsSub (tb ++ [':']) t.full_tag then some ⟨t, src⟩
          else findTPGo nodeName cf cs tb? (if best = none then some ⟨t, src⟩ else best) rest
        else some ⟨t, src⟩
      | none => some ⟨t, src⟩
    else findTPGo nodeName cf cs tb? best rest

/-- Model of `find_matching_restore_tag` (src lines 594-628). The restoration
pass for Text+ nodes always calls it with `tb? = none` (src line 539). -/
def find_matching_restore_tag (nodeName cf cs : List Char) (nwt : List NodeTags)
    (tb? : Option (List Char)) : Option FoundTag :=
  findTPGo nodeName cf cs tb? none (tagPairs nwt)

/-- Outcome of processing one Text+ node during restoration: the node after
the step, the removal performed on a tag owner's comments (`none` when no tag
was consumed), and the increments of the three counters of
`restore_original_fonts`. -/
structure TPRestoreResult where
  node : Tool
  removeAction : Option (List Char × TagData)
  foundInc : Nat
  restoredInc : Nat
  skippedInc : Nat
deriving DecidableEq

/-- Per-node body of the Text+ restoration loop of `restore_original_fonts`
(src lines 534-563): find a matching tag by current font and style; when its
original pair is available, write it back and remove the tag from its owning
field; when unavailable, leave everything in place and count the node as
skipped. -/
def restore_text_plus_node (installed : List (List Char × List (List Char)))
    (nwt : List NodeTags) (node : Tool) : TPRestoreResult :=
  match node.font with
  | none => ⟨node, none, 0, 0, 0⟩
  | some cf =>
    let cs := nodeStyle node
    match find_matching_restore_tag node.name cf cs nwt none with
    | none => ⟨node, none, 0, 0, 0⟩
    | some m =>
      let of' := m.tag.original_font
      let os' := m.tag.original_style
      if of' ≠ [] ∧ os' ≠ [] then
        if check_font_style_availability installed of' os' then
          ⟨{ node with font := some of', style := some os' },
            some (m.sourceNodeName, m.tag), 1, 1, 0⟩
        else ⟨node, none, 1, 0, 1⟩
      else ⟨node, none, 1, 0, 0⟩

/-- Resolution `node.GetInput(style_pattern) or "Regular"` of a MultiText
block's current style (src lines 653 and 1051): a missing or empty input
counts as `Regular`. -/
def mtCurrentStyle (cs? : Option (List Char)) : List Char :=
  match cs? with
  | some s => if s = [] then regularStyle else s
  | none => regularStyle

/-- Outcome of restoring one MultiText block: the block's font and style
inputs after the step, the removal performed, and the counter increments of
`restore_multitext_fonts`. -/
structure MTBlockResult where
  font : List Char
  style : Option (List Char)
  removeAction : Option (List Char × TagData)
  restoredInc : Nat
  skippedInc : Nat
deriving DecidableEq

/-- Per-block body of `restore_multitext_fonts` (src lines 646-691): resolve
the current style (`GetInput or "Regular"`), find a block-scoped match, and
either write back the original pair and remove the tag, or leave the block and
the tag untouched, counting the block as skipped when the original pair is not
available. -/
def restore_multitext_block (installed : List (List Char × List (List Char)))
    (nwt : List NodeTags) (nodeName textBlock cf : List Char)
    (cs? : Option (List Char)) : MTBlockResult :=
  let cs := mtCurrentStyle cs?
  match find_matching_restore_tag_for_multitext nodeName textBlock cf cs nwt with
  | none => ⟨cf, cs?, none, 0, 0⟩
  | some m =>
    let of' := m.tag.original_font
    let os' := m.tag.original_style
    if of' ≠ [] ∧ os' ≠ [] then
      if check_font_style_availability installed of' os' then
        ⟨of', some os', some (m.sourceNodeName, m.tag), 1, 0⟩
      else ⟨cf, cs?, none, 0, 1⟩
    else ⟨cf, cs?, none, 0, 0⟩

/-- Per-block body of `replace_multitext_fonts` (src lines 1043-1095): when
the block's current pair fails the catalog check, emit the `TextBlock`-scoped
restoration tag recording the requested replacement pair, commit the
replacement font, and commit the requested style only when the replacement
font actually offers it, falling back to the first enumerated style (or
`Regular`). Returns `none` when the block is left untouched, otherwise
`some (tag text, committed font, committed style)`. -/
def replace_multitext_block (installed : List (List Char × List (List Char)))
    (rf rs rid ts : List Char) (textBlock : List Char)
    (of? : Option (List Char)) (os? : Option (List Char)) :
    Option (List Char × List Char × List Char) :=
  match of? with
  | none => none
  | some of' =>
    if of' = [] then none
    else
      let os' := mtCurrentStyle os?
      match classify_slot_multi installed of' os' with
      | none => none
      | some _ =>
        let tag := (textBlockKey ++ ' ' :: textBlock) ++
          '\n' :: create_restore_tag of' os' rf rs rid ts
        let committed :=
          if rs ∈ (lookupFont installed rf).getD [] then rs
          else
            match lookupFont installed rf with
            | some (s0 :: _) => s0
            | _ => regularStyle
        some (tag, rf, committed)

/-- Control-flow skeleton of the statements a composition bracket executes:
`lock`/`unlock` are `comp.Lock()`/`comp.Unlock()`; a `guarded` statement sits
inside a `try/except` so its failure flag cannot abort the bracket; an
`unguarded` statement aborts the bracket when its failure flag is set. -/
inductive CompStep where
  | lock : CompStep
  | unlock : CompStep
  | guarded : Bool → CompStep
  | unguarded : Bool → CompStep
deriving DecidableEq

/-- Execution of a statement list from a given lock depth: returns the final
lock depth and whether the list ran to completion (an unguarded failure stops
execution at the current depth, modeling an exception propagating out of the
function). -/
def runCompSteps : List CompStep → Nat → Nat × Bool
  | [], d => (d, true)
  | CompStep.lock :: rest, d => runCompSteps rest (d + 1)
  | CompStep.unlock :: rest, d => runCompSteps rest (d - 1)
  | CompStep.guarded _ :: rest, d => runCompSteps rest d
  | CompStep.unguarded r :: rest, d => if r then (d, false) else runCompSteps rest d

/-- Statement skeleton of the per-composition bracket of
`restore_original_fonts` (src lines 510-576): `comp.Lock()`; the bare
`comp.GetToolList()` call (line 513, outside any `try`); the tag-collection
loop and the restore loop (each iteration wrapped in `try/except`,
lines 517-527 and 530-574); `comp.Unlock()` (line 576). There is no
`try/finally` around the bracket. -/
def restore_comp_steps (getToolListRaises : Bool) : List CompStep :=
  [CompStep.lock, CompStep.unguarded getToolListRaises,
    CompStep.guarded false, CompStep.guarded false, CompStep.unlock]

/-- Statement skeleton of the per-composition bracket of
`replace_missed_fonts` (src lines 882-1010): `comp.Lock()`; the bare
`comp.GetToolList()` call and the unguarded `node.Font` attribute reads of the
replacement loop (lines 886-935); the guarded comment and input writes
(lines 938-953); the guarded parent-comment loop (lines 967-1008);
`comp.Unlock()` (line 1010). Again no `try/finally`. -/
def replace_comp_steps (getToolListRaises nodeAccessRaises : Bool) : List CompStep :=
  [CompStep.lock, CompStep.unguarded getToolListRaises,
    CompStep.unguarded nodeAccessRaises, CompStep.guarded false,
    CompStep.guarded false, CompStep.unlock]

/-- Concrete catalog fixture: Arial with styles Regular and Bold. -/
def catalogArial : List (List Char × List (List Char)) :=
  [(("Arial").toList, [("Regular").toList, ("Bold").toList])]

/-- Concrete tag fixture scoped to block Text1, recording the replacement
pair Arial/Bold over the original pair Helvetica/Regular. -/
def tagScopedText1 : TagData :=
  { original_font := ("Helvetica").toList, original_style := ("Regular").toList,
    replacement_font := some (("Arial").toList),
    replacement_style := some (("Bold").toList),
    text_block := some (("Text1").toList),
    full_tag := (textBlockKey ++ ' ' :: ("Text1").toList) ++
      '\n' :: create_restore_tag ("Helvetica").toList ("Regular").toList
        ("Arial").toList ("Bold").toList ("20240101_000000_000").toList
        ("2024-01-01T00:00:00").toList }

/-- Concrete legacy (unscoped) tag fixture with the same pairs. -/
def tagLegacy : TagData :=
  { original_font := ("Helvetica").toList, original_style := ("Regular").toList,
    replacement_font := some (("Arial").toList),
    replacement_style := some (("Bold").toList),
    text_block := none,
    full_tag := create_restore_tag ("Helvetica").toList ("Regular").toList
      ("Arial").toList ("Bold").toList ("20240101_000000_000").toList
      ("2024-01-01T00:00:00").toList }

/-- Concrete Text+ node fixture currently showing the replacement pair. -/
def nodeArialBold : Tool :=
  { name := ("Text2").toList, regId := ("TextPlus").toList,
    font := some (("Arial").toList), style := some (("Bold").toList),
    comments := [] }

/-! Theorems. General facts about the embedded definitions come first, then
one theorem per claim (with witnesses or counterexamples where required). -/

/-- C4: during replacement a slot is classified as needing replacement exactly
when its current value is absent from the catalog or its current sub-value is
absent from that value's set; the MultiText classification agrees with the
Text+ one; and a slot whose pair is valid in the catalog is left untouched by
the replacement step (no attribute write, no comment write, no queued parent
entry). -/
theorem C4_classification_iff_and_valid_untouched
    (installed : List (List Char × List (List Char))) (f s : List Char) :
    (classify_slot installed f s = none ↔
      ∃ sts, lookupFont installed f = some sts ∧ s ∈ sts) ∧
    classify_slot_multi installed f s = classify_slot installed f s ∧
    (∀ (rf rs rid ts : List Char) (tools : List Tool) (node : Tool),
      node.font = some f → nodeStyle node = s →
      classify_slot installed f s = none →
      replace_text_node_step installed rf rs rid ts tools node = (node, none)) := by
  refine ⟨?_, ?_, ?_⟩
  · cases hl : lookupFont installed f with
    | none => simp [classify_slot, hl]
    | some sts =>
      by_cases hs : s ∈ sts
      · simp [classify_slot, hl, hs]
      · simp [classify_slot, hl, hs]
  · cases hl : lookupFont installed f with
    | none => simp [classify_slot, classify_slot_multi, hl]
    | some sts =>
      by_cases hs : s ∈ sts
      · simp [classify_slot, classify_slot_multi, hl, hs]
      · simp [classify_slot, classify_slot_multi, hl, hs]
  · intro rf rs rid ts tools node hf hs hcl
    rw [← hs] at hcl
    simp only [replace_text_node_step, hf, hcl]

/-- Witness for C4: in the catalog holding Arial with Regular and Bold, the
valid pair Arial/Bold is classified as not needing replacement and the
replacement step leaves such a node untouched. -/
theorem C4_witness :
    classify_slot catalogArial (("Arial").toList) (("Bold").toList) = none ∧
    replace_text_node_step catalogArial (("Open Sans").toList) (("Regular").toList)
      (("sid").toList) (("tsv").toList) [] nodeArialBold = (nodeArialBold, none) := by
  constructor
  · decide
  · exact (C4_classification_iff_and_valid_untouched catalogArial (("Arial").toList)
      (("Bold").toList)).2.2 _ _ _ _ [] nodeArialBold rfl (by decide) (by decide)

/-- C7: when the requested replacement style is not valid for the requested
replacement font, which the catalog does list, the resolved style is the first
enumerated valid style of that font (determinism holds because the resolution
is a function of the catalog enumeration). -/
theorem C7_fallback_first_enumerated_style
    (installed : List (List Char × List (List Char))) (rf rs s0 : List Char)
    (rest : List (List Char))
    (h1 : lookupFont installed rf = some (s0 :: rest))
    (h2 : rs ∉ s0 :: rest) :
    resolve_replacement_style installed rf rs = some s0 := by
  simp only [resolve_replacement_style, h1]
  rw [if_neg h2]

/-- Witness for C7: requesting Arial/Italic against the Arial catalog resolves
to the first enumerated style Regular. -/
theorem C7_witness :
    resolve_replacement_style catalogArial (("Arial").toList) (("Italic").toList) =
      some (("Regular").toList) :=
  C7_fallback_first_enumerated_style catalogArial (("Arial").toList)
    (("Italic").toList) (("Regular").toList) [("Bold").toList]
    (by decide) (by decide)

/-- C8: when the composition holds no tool qualifying as a container, the tag
destination is the replaced node itself; and in every case the destination is
either the node itself or a member of the composition satisfying the container
predicate (so never an arbitrary unrelated tool and never a pure effect
node). -/
theorem C8_destination_self_fallback_and_container_only
    (tools : List Tool) (node : Tool) :
    ((∀ t ∈ tools, isValidParent t = false) → restore_tag_destination tools node = node) ∧
    (restore_tag_destination tools node = node ∨
      (restore_tag_destination tools node ∈ tools ∧
        isValidParent (restore_tag_destination tools node) = true)) := by
  constructor
  · intro h
    unfold restore_tag_destination find_parent_group
    have hnil : tools.filter isValidParent = [] := by
      rw [List.filter_eq_nil_iff]
      intro a ha
      simp [h a ha]
    rw [hnil]
    rfl
  · unfold restore_tag_destination
    cases hfp : find_parent_group tools with
    | none => left; rfl
    | some p =>
      by_cases hsu : should_use_node_comments tools = true
      · left; simp [hsu]
      · right
        have hp : p ∈ tools.filter isValidParent := by
          unfold find_parent_group at hfp
          apply List.mem_of_mem_head?
          rw [hfp]
          simp
        have hmem := List.mem_filter.mp hp
        have hsu2 : should_use_node_comments tools = false := by
          revert hsu
          cases should_use_node_comments tools <;> simp
        simp only [hsu2, Bool.false_eq_true, if_false]
        exact hmem

/-- Witness for C8: a composition holding only a Text+ node has no container,
so the tag is written to the node itself. -/
theorem C8_witness :
    restore_tag_destination [nodeArialBold] nodeArialBold = nodeArialBold :=
  (C8_destination_self_fallback_and_container_only [nodeArialBold] nodeArialBold).1
    (by decide)

/-- C9: the per-composition bracket acquires the lock, but because no
`try/finally` protects it, an exception raised by the unguarded
`comp.GetToolList()` call aborts the bracket with the lock still held (final
depth 1, not completed) in both the restoration and the replacement loops;
only the exception-free executions end with the lock released. -/
theorem C9_lock_not_released_on_exception :
    runCompSteps (restore_comp_steps true) 0 = (1, false) ∧
    runCompSteps (restore_comp_steps false) 0 = (0, true) ∧
    runCompSteps (replace_comp_steps true false) 0 = (1, false) ∧
    runCompSteps (replace_comp_steps false true) 0 = (1, false) ∧
    runCompSteps (replace_comp_steps false false) 0 = (0, true) := by
  decide

/-- Soundness of the inner MultiText tag loop: an accepted tag matches the
current replacement pair, and if it carries a truthy block scope then that
scope names exactly the target block. -/
theorem findMultiInTags_accepts_scoped_only
    (textBlock cf cs srcName : List Char) (tags : List TagData) (r : FoundTag)
    (h : findMultiInTags textBlock cf cs srcName tags = some r) :
    r.tag.replacement_font = some cf ∧ r.tag.replacement_style = some cs ∧
    (∀ tb, r.tag.text_block = some tb → tb ≠ [] → tb = textBlock) := by
  induction tags with
  | nil => simp [findMultiInTags] at h
  | cons t ts ih =>
    rw [findMultiInTags] at h
    by_cases hrm : replacementMatches t cf cs = true
    · rw [if_pos hrm] at h
      have hmatch := hrm
      unfold replacementMatches at hmatch
      simp only [Bool.and_eq_true, beq_iff_eq] at hmatch
      cases htb : t.text_block with
      | some tb =>
        simp only [htb] at h
        by_cases hne : tb ≠ []
        · rw [if_pos hne] at h
          by_cases heq : tb = textBlock
          · rw [if_pos heq] at h
            injection h with h'
            subst h'
            refine ⟨hmatch.1, hmatch.2, ?_⟩
            intro tb' htb' _
            rw [htb] at htb'
            injection htb' with h2
            rw [← h2, heq]
          · rw [if_neg heq] at h
            exact ih h
        · rw [if_neg hne] at h
          injection h with h'
          subst h'
          refine ⟨hmatch.1, hmatch.2, ?_⟩
          intro tb' htb' hne2
          rw [htb] at htb'
          injection htb' with h2
          rw [← h2] at hne2
          simp at hne
          exact absurd hne hne2
      | none =>
        simp only [htb] at h
        injection h with h'
        subst h'
        refine ⟨hmatch.1, hmatch.2, ?_⟩
        intro tb' htb' _
        rw [htb] at htb'
        cases htb'
    · rw [if_neg hrm] at h
      exact ih h

/-- C5 (amended): in the MultiText matcher, an accepted tag always matches the
current replacement pair, and a tag carrying a truthy slot scope is accepted
only when that scope equals the target block name exactly, so a slot-scoped
tag never drives the restoration of a differently named block. -/
theorem C5_multitext_scoped_acceptance_exact
    (nodeName textBlock cf cs : List Char) (nwt : List NodeTags) (r : FoundTag)
    (h : find_matching_restore_tag_for_multitext nodeName textBlock cf cs nwt = some r) :
    r.tag.replacement_font = some cf ∧ r.tag.replacement_style = some cs ∧
    (∀ tb, r.tag.text_block = some tb → tb ≠ [] → tb = textBlock) := by
  induction nwt with
  | nil => simp [find_matching_restore_tag_for_multitext] at h
  | cons n ns ih =>
    rw [find_matching_restore_tag_for_multitext] at h
    cases hin : findMultiInTags textBlock cf cs n.nodeName n.tags with
    | some r2 =>
      rw [hin] at h
      injection h with h'
      subst h'
      exact findMultiInTags_accepts_scoped_only _ _ _ _ _ _ hin
    | none =>
      rw [hin] at h
      exact ih h

/-- Witness for C5's amended statement: a concrete MultiText lookup that
accepts a tag scoped to Text1 for target block Text1. -/
theorem C5_multitext_scoped_acceptance_witness :
    tagScopedText1.replacement_font = some (("Arial").toList) ∧
    tagScopedText1.replacement_style = some (("Bold").toList) ∧
    (∀ tb, tagScopedText1.text_block = some tb → tb ≠ [] → tb = ("Text1").toList) :=
  C5_multitext_scoped_acceptance_exact (("MT1").toList) (("Text1").toList)
    (("Arial").toList) (("Bold").toList) [⟨("MT1").toList, [tagScopedText1]⟩]
    ⟨tagScopedText1, ("MT1").toList⟩ (by decide)

/-- Counterexample to C5 as stated: the Text+ matcher, which restoration
invokes with no slot name, accepts a tag scoped to block Text1 for the
unrelated slot named Text2 purely on the replacement-pair match, without any
slot-name comparison. -/
theorem C5_counterexample_scoped_tag_accepted_unscoped :
    find_matching_restore_tag (("Text2").toList) (("Arial").toList) (("Bold").toList)
      [⟨("MT1").toList, [tagScopedText1]⟩] none =
        some ⟨tagScopedText1, ("MT1").toList⟩ ∧
    tagScopedText1.text_block = some (("Text1").toList) ∧
    (("Text1").toList : List Char) ≠ ("Text2").toList := by
  refine ⟨by decide, rfl, by decide⟩

/-- C6: during restoration, when a matched tag's original pair is not
available in the catalog, the Text+ node keeps its current attributes, no
removal is performed on the tag owner's comments (the tag stays embedded), and
the case counts as one skipped-unavailable; likewise for a MultiText block. -/
theorem C6_unavailable_leaves_slot_and_tag
    (installed : List (List Char × List (List Char))) (nwt : List NodeTags) :
    (∀ (node : Tool) (cf : List Char) (m : FoundTag),
      node.font = some cf →
      find_matching_restore_tag node.name cf (nodeStyle node) nwt none = some m →
      m.tag.original_font ≠ [] → m.tag.original_style ≠ [] →
      check_font_style_availability installed m.tag.original_font m.tag.original_style = false →
      restore_text_plus_node installed nwt node = ⟨node, none, 1, 0, 1⟩) ∧
    (∀ (nodeName textBlock cf : List Char) (cs? : Option (List Char)) (m : FoundTag),
      find_matching_restore_tag_for_multitext nodeName textBlock cf
        (mtCurrentStyle cs?) nwt = some m →
      m.tag.original_font ≠ [] → m.tag.original_style ≠ [] →
      check_font_style_availability installed m.tag.original_font m.tag.original_style = false →
      restore_multitext_block installed nwt nodeName textBlock cf cs? =
        ⟨cf, cs?, none, 0, 1⟩) := by
  constructor
  · intro node cf m hf hm hof hos hun
    simp only [restore_text_plus_node, hf, hm]
    rw [if_pos ⟨hof, hos⟩, if_neg (by rw [hun]; exact Bool.false_ne_true)]
  · intro nodeName textBlock cf cs? m hm hof hos hun
    simp only [restore_multitext_block, hm]
    rw [if_pos ⟨hof, hos⟩, if_neg (by rw [hun]; exact Bool.false_ne_true)]

/-- Witness for C6: with Helvetica absent from the Arial-only catalog, the
node currently showing Arial/Bold is matched against the embedded legacy tag
but left unchanged, with no removal and one skip. -/
theorem C6_witness :
    restore_text_plus_node catalogArial [⟨("MT1").toList, [tagLegacy]⟩] nodeArialBold =
      ⟨nodeArialBold, none, 1, 0, 1⟩ :=
  (C6_unavailable_leaves_slot_and_tag catalogArial [⟨("MT1").toList, [tagLegacy]⟩]).1
    nodeArialBold (("Arial").toList) ⟨tagLegacy, ("MT1").toList⟩
    rfl (by decide) (by decide) (by decide) (by decide)

/-- C10: for a MultiText block needing replacement, when the requested
replacement style is not among the replacement font's styles the engine
commits the first enumerated style of the replacement font while the embedded
tag still records the originally requested style in its `replaced_with` field,
so the committed pair differs from the pair the tag records. -/
theorem C10_committed_style_differs_from_recorded
    (installed : List (List Char × List (List Char)))
    (rf rs rid ts textBlock of' os' s0 : List Char) (rest : List (List Char))
    (hof : of' ≠ [])
    (hcl : classify_slot_multi installed of' (mtCurrentStyle (some os')) ≠ none)
    (h1 : lookupFont installed rf = some (s0 :: rest))
    (h2 : rs ∉ s0 :: rest) :
    replace_multitext_block installed rf rs rid ts textBlock (some of') (some os') =
      some ((textBlockKey ++ ' ' :: textBlock) ++
          '\n' :: create_restore_tag of' (mtCurrentStyle (some os')) rf rs rid ts,
        rf, s0) ∧ s0 ≠ rs := by
  constructor
  · cases hc : classify_slot_multi installed of' (mtCurrentStyle (some os')) with
    | none => exact absurd hc hcl
    | some r =>
      simp only [replace_multitext_block, if_neg hof, hc, h1, Option.getD_some]
      rw [if_neg h2]
  · intro he
    exact h2 (he ▸ List.mem_cons_self s0 rest)

/-- Witness for C10: replacing Helvetica/Light by Arial with requested style
Italic (absent from Arial's styles) commits Arial/Regular while the tag
records the requested pair Arial|Italic. -/
theorem C10_witness :
    replace_multitext_block catalogArial (("Arial").toList) (("Italic").toList)
      (("sid").toList) (("tsv").toList) (("Text1").toList)
      (some (("Helvetica").toList)) (some (("Light").toList)) =
      some ((textBlockKey ++ ' ' :: ("Text1").toList) ++
          '\n' :: create_restore_tag (("Helvetica").toList)
            (mtCurrentStyle (some (("Light").toList))) (("Arial").toList)
            (("Italic").toList) (("sid").toList) (("tsv").toList),
        ("Arial").toList, ("Regular").toList) ∧
    (("Regular").toList : List Char) ≠ ("Italic").toList :=
  C10_committed_style_differs_from_recorded catalogArial (("Arial").toList)
    (("Italic").toList) (("sid").toList) (("tsv").toList) (("Text1").toList)
    (("Helvetica").toList) (("Light").toList) (("Regular").toList)
    [("Bold").toList] (by decide) (by decide) (by decide) (by decide)

/-- Substring containment characterized by a prefix at some drop offset. -/
theorem containsSub_iff (pat cs : List Char) :
    containsSub pat cs = true ↔ ∃ n, pat.isPrefixOf (cs.drop n) = true := by
  induction cs with
  | nil =>
    cases pat with
    | nil => simp [containsSub, List.isPrefixOf]
    | cons p ps => simp [containsSub, List.isPrefixOf]
  | cons c rest ih =>
    simp only [containsSub, Bool.or_eq_true]
    constructor
    · rintro (h | h)
      · exact ⟨0, by simpa using h⟩
      · obtain ⟨n, hn⟩ := ih.mp h
        exact ⟨n + 1, by simpa using hn⟩
    · rintro ⟨n, hn⟩
      cases n with
      | zero => left; simpa using hn
      | succ m => right; exact ih.mpr ⟨m, by simpa using hn⟩

/-- A substring absent from a list is absent from each of its infixes. -/
theorem containsSub_eq_false_of_infix (pat l cs : List Char)
    (hcs : containsSub pat cs = false) (hinf : l <:+: cs) :
    containsSub pat l = false := by
  by_contra hne
  have hl : containsSub pat l = true := by
    cases hcl : containsSub pat l
    · exact absurd hcl hne
    · rfl
  obtain ⟨n, hn⟩ := (containsSub_iff pat l).mp hl
  obtain ⟨p, s, hps⟩ := hinf
  have hpre : pat <+: l.drop n := (@List.isPrefixOf_iff_prefix Char _ _ _ _).mp hn
  by_cases hlen : n ≤ l.length
  · have hdrop : cs.drop (p.length + n) = l.drop n ++ s := by
      rw [← hps]
      rw [List.drop_append_eq_append_drop]
      rw [List.drop_append_eq_append_drop]
      have h2 : p.drop (p.length + n) = [] := List.drop_eq_nil_of_le (by omega)
      have h1 : p.length + n - p.length = n := by omega
      have h3 : p.length + n - (p ++ l).length = 0 := by
        simp only [List.length_append]
        omega
      rw [h2, h1, h3, List.nil_append, List.drop_zero]
    have hoc : containsSub pat cs = true := by
      rw [containsSub_iff]
      refine ⟨p.length + n, ?_⟩
      rw [hdrop]
      exact (@List.isPrefixOf_iff_prefix Char _ _ _ _).mpr (hpre.trans (List.prefix_append _ _))
    rw [hoc] at hcs
    exact absurd hcs (by simp)
  · have : l.drop n = [] := List.drop_eq_nil_of_le (by omega)
    rw [this] at hpre
    have hpat : pat = [] := List.prefix_nil.mp hpre
    subst hpat
    have hoc : containsSub [] cs = true := by
      rw [containsSub_iff]
      exact ⟨0, by simp [List.isPrefixOf]⟩
    rw [hoc] at hcs
    exact absurd hcs (by simp)

/-- Shape of `splitNL`: it is never empty, its head is a prefix of the input,
and every emitted line is an infix of the input. -/
theorem splitNL_spec (cs : List Char) :
    splitNL cs ≠ [] ∧ (∀ m ms, splitNL cs = m :: ms → m <+: cs) ∧
    (∀ l ∈ splitNL cs, l <:+: cs) := by
  induction cs with
  | nil =>
    refine ⟨by simp [splitNL], ?_, ?_⟩
    · intro m ms h
      simp [splitNL] at h
      simp [h.1]
    · intro l hl
      simp [splitNL] at hl
      simp [hl]
  | cons c rest ih =>
    by_cases hc : c = '\n'
    · subst hc
      have hs : splitNL ('\n' :: rest) = [] :: splitNL rest := by
        rw [splitNL]
        simp
      refine ⟨by simp [hs], ?_, ?_⟩
      · intro m ms h
        rw [hs] at h
        have hm : m = [] := by
          injection h with h1 h2
          exact h1.symm
        simp [hm]
      · intro l hl
        rw [hs] at hl
        cases hl with
        | head => exact List.nil_infix
        | tail _ hmem =>
          have := ih.2.2 l hmem
          exact this.trans (List.infix_cons (List.infix_refl _))
    · cases hsp : splitNL rest with
      | nil => exact absurd hsp ih.1
      | cons m ms =>
        have hs : splitNL (c :: rest) = (c :: m) :: ms := by
          rw [splitNL]
          simp only [if_neg hc, hsp]
        have hmp : m <+: rest := ih.2.1 m ms hsp
        refine ⟨by simp [hs], ?_, ?_⟩
        · intro m2 ms2 h
          rw [hs] at h
          injection h with h1 h2
          rw [← h1]
          exact List.cons_prefix_cons.mpr ⟨rfl, hmp⟩
        · intro l hl
          rw [hs] at hl
          cases hl with
          | head => exact (List.cons_prefix_cons.mpr ⟨rfl, hmp⟩).isInfix
          | tail _ hmem =>
            have hmem2 : l ∈ splitNL rest := by rw [hsp]; exact List.mem_cons_of_mem _ hmem
            have := ih.2.2 l hmem2
            exact this.trans (List.infix_cons (List.infix_refl _))

/-- When no line carries the closing marker, block collection fails. -/
theorem collectTag_eq_none_of_no_close (ls : List (List Char))
    (h : ∀ l ∈ ls, containsSub closeMarker l = false) : collectTag ls = none := by
  induction ls with
  | nil => rfl
  | cons l rest ih =>
    rw [collectTag]
    rw [h l (List.mem_cons_self _ _)]
    simp only [Bool.false_eq_true, if_false]
    rw [ih (fun x hx => h x (List.mem_cons_of_mem _ hx))]

/-- The suffix returned by the opening-marker scan is a suffix of its input. -/
theorem findOpenSuffix_suffix (ls s : List (List Char))
    (h : findOpenSuffix ls = some s) : s <:+ ls := by
  induction ls with
  | nil => simp [findOpenSuffix] at h
  | cons l rest ih =>
    rw [findOpenSuffix] at h
    by_cases hc : containsSub openMarker l = true
    · rw [if_pos hc] at h
      injection h with h1
      rw [← h1]
    · rw [if_neg hc] at h
      exact (ih h).trans (List.suffix_cons _ _)

/-- Every tag the block builder emits has nonempty required fields. -/
theorem buildTagData_fields_nonempty (tb : Option (List Char))
    (content : List (List Char)) (t : TagData) (h : t ∈ buildTagData tb content) :
    t.original_font ≠ [] ∧ t.original_style ≠ [] := by
  simp only [buildTagData] at h
  cases h1 : extract_tag_value (joinNL content) pOriginalFont with
  | none => simp [h1] at h
  | some a =>
    cases h2 : extract_tag_value (joinNL content) pOriginalStyle with
    | none => simp [h1, h2] at h
    | some b =>
      simp only [h1, h2] at h
      by_cases hab : a ≠ [] ∧ b ≠ []
      · rw [if_pos hab] at h
        simp only [List.mem_singleton] at h
        subst h
        exact hab
      · rw [if_neg hab] at h
        simp at h

/-- Unfolding equation: the empty line list parses to nothing. -/
theorem parseLines_nil : parseLines [] = [] := by
  rw [parseLines]

/-- Unfolding equation for a TextBlock line with no later opening marker. -/
theorem parseLines_tb_no_open (l : List Char) (ls : List (List Char))
    (htb : textBlockKey.isPrefixOf (pyStrip l) = true)
    (hfo : findOpenSuffix ls = none) :
    parseLines (l :: ls) = [] := by
  rw [parseLines, if_pos htb]
  split
  · rfl
  · rename_i s heq
    rw [hfo] at heq
    cases heq

/-- Unfolding equation for a TextBlock line followed by a closed block. -/
theorem parseLines_tb_collect (l : List Char) (ls s content rem : List (List Char))
    (htb : textBlockKey.isPrefixOf (pyStrip l) = true)
    (hfo : findOpenSuffix ls = some s)
    (hct : collectTag s = some (content, rem)) :
    parseLines (l :: ls) =
      buildTagData (some (pyStrip (pyReplace (pyStrip l) textBlockKey []))) content ++
        parseLines rem := by
  rw [parseLines, if_pos htb]
  split
  · rename_i heq
    rw [hfo] at heq
    cases heq
  · rename_i s2 heq
    rw [hfo] at heq
    injection heq with heq2
    subst heq2
    split
    · rename_i content2 rem2 heq3
      rw [hct] at heq3
      injection heq3 with heq4
      injection heq4 with h5 h6
      subst h5
      subst h6
      rfl
    · rename_i heq3
      rw [hct] at heq3
      cases heq3

/-- Unfolding equation for a TextBlock line whose block never closes. -/
theorem parseLines_tb_no_close (l : List Char) (ls s : List (List Char))
    (htb : textBlockKey.isPrefixOf (pyStrip l) = true)
    (hfo : findOpenSuffix ls = some s)
    (hct : collectTag s = none) :
    parseLines (l :: ls) = parseLines s.tail := by
  rw [parseLines, if_pos htb]
  split
  · rename_i heq
    rw [hfo] at heq
    cases heq
  · rename_i s2 heq
    rw [hfo] at heq
    injection heq with heq2
    subst heq2
    split
    · rename_i content2 rem2 heq3
      rw [hct] at heq3
      cases heq3
    · rfl

/-- Unfolding equation for a legacy opening line with a closed block. -/
theorem parseLines_legacy_collect (l : List Char) (ls content rem : List (List Char))
    (htb : textBlockKey.isPrefixOf (pyStrip l) = false)
    (hop : containsSub openMarker (pyStrip l) = true)
    (hct : collectTag (l :: ls) = some (content, rem)) :
    parseLines (l :: ls) = buildTagData none content ++ parseLines rem := by
  rw [parseLines]
  rw [if_neg (by rw [htb]; exact Bool.false_ne_true), if_pos hop]
  split
  · rename_i content2 rem2 heq3
    rw [hct] at heq3
    injection heq3 with heq4
    injection heq4 with h5 h6
    subst h5
    subst h6
    rfl
  · rename_i heq3
    rw [hct] at heq3
    cases heq3

/-- Unfolding equation for a legacy opening line whose block never closes. -/
theorem parseLines_legacy_no_close (l : List Char) (ls : List (List Char))
    (htb : textBlockKey.isPrefixOf (pyStrip l) = false)
    (hop : containsSub openMarker (pyStrip l) = true)
    (hct : collectTag (l :: ls) = none) :
    parseLines (l :: ls) = parseLines ls := by
  rw [parseLines]
  rw [if_neg (by rw [htb]; exact Bool.false_ne_true), if_pos hop]
  split
  · rename_i content2 rem2 heq3
    rw [hct] at heq3
    cases heq3
  · rfl

/-- Unfolding equation for an ordinary line. -/
theorem parseLines_skip (l : List Char) (ls : List (List Char))
    (htb : textBlockKey.isPrefixOf (pyStrip l) = false)
    (hop : containsSub openMarker (pyStrip l) = false) :
    parseLines (l :: ls) = parseLines ls := by
  rw [parseLines]
  rw [if_neg (by rw [htb]; exact Bool.false_ne_true),
    if_neg (by rw [hop]; exact Bool.false_ne_true)]

/-- Every tag the line parser emits has nonempty required fields. -/
theorem parseLines_fields_nonempty (ls : List (List Char)) :
    ∀ t ∈ parseLines ls, t.original_font ≠ [] ∧ t.original_style ≠ [] := by
  induction ls using parseLines.induct with
  | case1 => intro t ht; rw [parseLines_nil] at ht; cases ht
  | case2 l ls sl htb hfo =>
    intro t ht
    rw [parseLines_tb_no_open l ls htb hfo] at ht
    cases ht
  | case3 l ls sl htb s hfo content rem hct ih =>
    intro t ht
    rw [parseLines_tb_collect l ls s content rem htb hfo hct] at ht
    rw [List.mem_append] at ht
    cases ht with
    | inl hin => exact buildTagData_fields_nonempty _ _ _ hin
    | inr hin => exact ih t hin
  | case4 l ls sl htb s hfo hct ih =>
    intro t ht
    rw [parseLines_tb_no_close l ls s htb hfo hct] at ht
    exact ih t ht
  | case5 l ls sl htb hop content rem hct ih =>
    intro t ht
    rw [parseLines_legacy_collect l ls content rem
      ((Bool.not_eq_true _).mp htb) hop hct] at ht
    rw [List.mem_append] at ht
    cases ht with
    | inl hin => exact buildTagData_fields_nonempty _ _ _ hin
    | inr hin => exact ih t hin
  | case6 l ls sl htb hop hct ih =>
    intro t ht
    rw [parseLines_legacy_no_close l ls ((Bool.not_eq_true _).mp htb) hop hct] at ht
    exact ih t ht
  | case7 l ls sl htb hop ih =>
    intro t ht
    rw [parseLines_skip l ls ((Bool.not_eq_true _).mp htb)
      ((Bool.not_eq_true _).mp hop)] at ht
    exact ih t ht

/-- A line list whose lines never carry the closing marker parses to nothing. -/
theorem parseLines_eq_nil_of_no_close (ls : List (List Char)) :
    (∀ l ∈ ls, containsSub closeMarker l = false) → parseLines ls = [] := by
  induction ls using parseLines.induct with
  | case1 => intro h; exact parseLines_nil
  | case2 l ls sl htb hfo =>
    intro h
    exact parseLines_tb_no_open l ls htb hfo
  | case3 l ls sl htb s hfo content rem hct ih =>
    intro h
    exfalso
    have hsub : ∀ x ∈ s, containsSub closeMarker x = false := by
      intro x hx
      have hsuf := findOpenSuffix_suffix ls s hfo
      exact h x (List.mem_cons_of_mem _ (hsuf.subset hx))
    rw [collectTag_eq_none_of_no_close s hsub] at hct
    cases hct
  | case4 l ls sl htb s hfo hct ih =>
    intro h
    rw [parseLines_tb_no_close l ls s htb hfo hct]
    apply ih
    intro x hx
    have hsuf := findOpenSuffix_suffix ls s hfo
    have hx2 : x ∈ s := by
      cases s with
      | nil => cases hx
      | cons s0 srest => exact List.mem_cons_of_mem _ hx
    exact h x (List.mem_cons_of_mem _ (hsuf.subset hx2))
  | case5 l ls sl htb hop content rem hct ih =>
    intro h
    exfalso
    rw [collectTag_eq_none_of_no_close (l :: ls) h] at hct
    cases hct
  | case6 l ls sl htb hop hct ih =>
    intro h
    rw [parseLines_legacy_no_close l ls ((Bool.not_eq_true _).mp htb) hop hct]
    exact ih (fun x hx => h x (List.mem_cons_of_mem _ hx))
  | case7 l ls sl htb hop ih =>
    intro h
    rw [parseLines_skip l ls ((Bool.not_eq_true _).mp htb)
      ((Bool.not_eq_true _).mp hop)]
    exact ih (fun x hx => h x (List.mem_cons_of_mem _ hx))

/-- C2: decoding is a total function on strings (it is a Lean function, so it
returns a tag list on every input); every tag it ever emits carries nonempty
required fields, so a block with a required field absent or empty contributes
no tag; and an input without the closing marker, hence one whose blocks are
all unterminated, contributes no tag at all. -/
theorem C2_decode_total_and_malformed_silent (comments : List Char) :
    (∀ t ∈ parse_all_restore_tags_from_comments comments,
      t.original_font ≠ [] ∧ t.original_style ≠ []) ∧
    (containsSub closeMarker comments = false →
      parse_all_restore_tags_from_comments comments = []) := by
  constructor
  · exact parseLines_fields_nonempty (splitNL comments)
  · intro hnc
    unfold parse_all_restore_tags_from_comments
    apply parseLines_eq_nil_of_no_close
    intro l hl
    exact containsSub_eq_false_of_infix closeMarker l comments hnc
      ((splitNL_spec comments).2.2 l hl)

/-- Witness for C2 on concrete inputs: plain prose decodes to nothing, and a
block missing its closing marker is discarded silently. -/
theorem C2_witness :
    parse_all_restore_tags_from_comments (("hello world").toList) = [] ∧
    parse_all_restore_tags_from_comments
      (("[PostFlows_FONT_RESTORE]\noriginal_font: Helvetica").toList) = [] := by
  constructor
  · exact (C2_decode_total_and_malformed_silent (("hello world").toList)).2 (by decide)
  · exact (C2_decode_total_and_malformed_silent
      (("[PostFlows_FONT_RESTORE]\noriginal_font: Helvetica").toList)).2 (by decide)

/-- Bridge between the executable prefix test and the prefix relation. -/
theorem isPrefixOf_eq_true_iff (l₁ l₂ : List Char) :
    l₁.isPrefixOf l₂ = true ↔ l₁ <+: l₂ :=
  @List.isPrefixOf_iff_prefix Char _ _ l₁ l₂

/-- A prefix of `X ++ a :: Z` either stays inside `X` or contains `a`. -/
theorem prefix_append_cons_cases (P X Z : List Char) (a : Char)
    (h : P <+: X ++ a :: Z) : P <+: X ∨ a ∈ P := by
  induction X generalizing P with
  | nil =>
    cases P with
    | nil => left; exact List.nil_prefix
    | cons p ps =>
      right
      rw [List.nil_append] at h
      have := (List.cons_prefix_cons.mp h).1
      rw [this]
      exact List.mem_cons_self _ _
  | cons x X' ih =>
    cases P with
    | nil => left; exact List.nil_prefix
    | cons p ps =>
      rw [List.cons_append] at h
      obtain ⟨hpx, hps⟩ := List.cons_prefix_cons.mp h
      subst hpx
      cases ih ps hps with
      | inl h2 => left; exact List.cons_prefix_cons.mpr ⟨rfl, h2⟩
      | inr h2 => right; exact List.mem_cons_of_mem _ h2

/-- A prefix occurrence is a containment occurrence. -/
theorem containsSub_of_prefix (key X : List Char) (h : key <+: X) :
    containsSub key X = true := by
  rw [containsSub_iff]
  exact ⟨0, by simpa using (isPrefixOf_eq_true_iff _ _).mpr h⟩

/-- A prefix of a suffix is a containment occurrence. -/
theorem containsSub_of_prefix_suffix (key t C : List Char)
    (h1 : key <+: t) (h2 : t <:+ C) : containsSub key C = true := by
  obtain ⟨p, hp⟩ := h2
  rw [containsSub_iff]
  refine ⟨p.length, ?_⟩
  rw [← hp, List.drop_left]
  exact (isPrefixOf_eq_true_iff _ _).mpr h1

/-- Containment in an append is ruled out by absence from both parts together
with the straddle condition that no nonempty suffix of the left part begins
the pattern. -/
theorem containsSub_append_eq_false (key X Y : List Char)
    (hX : containsSub key X = false) (hY : containsSub key Y = false)
    (hstr : ∀ n, n < X.length → ((X.drop n).isPrefixOf key) = false) :
    containsSub key (X ++ Y) = false := by
  by_contra hne
  have h : containsSub key (X ++ Y) = true := by
    cases hc : containsSub key (X ++ Y)
    · exact absurd hc hne
    · rfl
  obtain ⟨n, hn⟩ := (containsSub_iff _ _).mp h
  have hpre : key <+: (X ++ Y).drop n := (isPrefixOf_eq_true_iff _ _).mp hn
  by_cases hlt : n < X.length
  · have hdrop : (X ++ Y).drop n = X.drop n ++ Y := by
      rw [List.drop_append_eq_append_drop]
      have h0 : n - X.length = 0 := by omega
      rw [h0, List.drop_zero]
    rw [hdrop] at hpre
    have hXdn : X.drop n <+: X.drop n ++ Y := List.prefix_append _ _
    cases List.prefix_or_prefix_of_prefix hpre hXdn with
    | inl h2 =>
      have hocc : containsSub key X = true := by
        rw [containsSub_iff]
        exact ⟨n, (isPrefixOf_eq_true_iff _ _).mpr h2⟩
      rw [hocc] at hX
      cases hX
    | inr h2 =>
      have := hstr n hlt
      rw [(isPrefixOf_eq_true_iff _ _).mpr h2] at this
      cases this
  · have hdrop : (X ++ Y).drop n = Y.drop (n - X.length) := by
      rw [List.drop_append_eq_append_drop]
      have h0 : X.drop n = [] := List.drop_eq_nil_of_le (by omega)
      rw [h0, List.nil_append]
    rw [hdrop] at hpre
    have hocc : containsSub key Y = true := by
      rw [containsSub_iff]
      exact ⟨n - X.length, (isPrefixOf_eq_true_iff _ _).mpr hpre⟩
    rw [hocc] at hY
    cases hY

/-- Containment in `X ++ a :: Y` is ruled out by absence from both parts when
the boundary character does not occur in the pattern. -/
theorem containsSub_append_cons_eq_false (key X Y : List Char) (a : Char)
    (hkey : key ≠ []) (ha : a ∉ key)
    (hX : containsSub key X = false) (hY : containsSub key Y = false) :
    containsSub key (X ++ a :: Y) = false := by
  by_contra hne
  have h : containsSub key (X ++ a :: Y) = true := by
    cases hc : containsSub key (X ++ a :: Y)
    · exact absurd hc hne
    · rfl
  obtain ⟨n, hn⟩ := (containsSub_iff _ _).mp h
  have hpre : key <+: (X ++ a :: Y).drop n := (isPrefixOf_eq_true_iff _ _).mp hn
  by_cases hle : n ≤ X.length
  · have hdrop : (X ++ a :: Y).drop n = X.drop n ++ a :: Y := by
      rw [List.drop_append_eq_append_drop]
      have h0 : n - X.length = 0 := by omega
      rw [h0, List.drop_zero]
    rw [hdrop] at hpre
    cases prefix_append_cons_cases key (X.drop n) Y a hpre with
    | inl h2 =>
      by_cases hlt : n < X.length
      · have hocc : containsSub key X = true := by
          rw [containsSub_iff]
          exact ⟨n, (isPrefixOf_eq_true_iff _ _).mpr h2⟩
        rw [hocc] at hX
        cases hX
      · have h0 : X.drop n = [] := List.drop_eq_nil_of_le (by omega)
        rw [h0] at h2
        exact hkey (List.prefix_nil.mp h2)
    | inr h2 => exact ha h2
  · have hdrop : (X ++ a :: Y).drop n = Y.drop (n - X.length - 1) := by
      rw [List.drop_append_eq_append_drop]
      have h0 : X.drop n = [] := List.drop_eq_nil_of_le (by omega)
      rw [h0, List.nil_append]
      have h1 : n - X.length = (n - X.length - 1) + 1 := by omega
      rw [h1, List.drop_succ_cons]
      congr 1 <;> omega
    rw [hdrop] at hpre
    have hocc : containsSub key Y = true := by
      rw [containsSub_iff]
      exact ⟨n - X.length - 1, (isPrefixOf_eq_true_iff _ _).mpr hpre⟩
    rw [hocc] at hY
    cases hY

/-- The key search skips a block that does not contain the key and whose
boundary character is foreign to the key. -/
theorem searchKeyVal_append_cons (key X B : List Char) (a : Char)
    (hkey : key ≠ []) (ha : a ∉ key) (hX : containsSub key X = false) :
    searchKeyVal key (X ++ a :: B) = searchKeyVal key B := by
  induction X with
  | nil =>
    rw [List.nil_append, searchKeyVal]
    have hb : key.isPrefixOf (a :: B) = false := by
      by_contra hb'
      have hb2 : key.isPrefixOf (a :: B) = true := by
        cases hc : key.isPrefixOf (a :: B)
        · exact absurd hc hb'
        · rfl
      have hpre := (isPrefixOf_eq_true_iff _ _).mp hb2
      cases prefix_append_cons_cases key [] B a (by simpa using hpre) with
      | inl h2 => exact hkey (List.prefix_nil.mp h2)
      | inr h2 => exact ha h2
    simp only [hb, Bool.false_eq_true, if_false]
  | cons c X' ih =>
    rw [List.cons_append, searchKeyVal]
    have hXc : containsSub key (c :: X') = false := hX
    have hb : key.isPrefixOf (c :: (X' ++ a :: B)) = false := by
      by_contra hb'
      have hb2 : key.isPrefixOf (c :: (X' ++ a :: B)) = true := by
        cases hc : key.isPrefixOf (c :: (X' ++ a :: B))
        · exact absurd hc hb'
        · rfl
      have hpre := (isPrefixOf_eq_true_iff _ _).mp hb2
      have hpre2 : key <+: (c :: X') ++ a :: B := by
        rw [List.cons_append]
        exact hpre
      cases prefix_append_cons_cases key (c :: X') B a hpre2 with
      | inl h2 =>
        have := containsSub_of_prefix key (c :: X') h2
        rw [this] at hXc
        cases hXc
      | inr h2 => exact ha h2
    simp only [hb, Bool.false_eq_true, if_false]
    apply ih
    rw [containsSub] at hXc
    exact (Bool.or_eq_false_iff.mp hXc).2

/-- Take-while runs through a satisfying block and stops at the boundary. -/
theorem takeWhile_append_cons_stop (p : Char → Bool) (l₁ l₂ : List Char) (a : Char)
    (h : ∀ c ∈ l₁, p c = true) (ha : p a = false) :
    (l₁ ++ a :: l₂).takeWhile p = l₁ := by
  induction l₁ with
  | nil =>
    rw [List.nil_append, List.takeWhile_cons, ha]
    simp
  | cons c t ih =>
    rw [List.cons_append, List.takeWhile_cons, h c (List.mem_cons_self _ _)]
    rw [ih (fun x hx => h x (List.mem_cons_of_mem _ hx))]
    simp

/-- Drop-while runs through a satisfying block and stops at the boundary. -/
theorem dropWhile_append_cons_stop (p : Char → Bool) (l₁ l₂ : List Char) (a : Char)
    (h : ∀ c ∈ l₁, p c = true) (ha : p a = false) :
    (l₁ ++ a :: l₂).dropWhile p = a :: l₂ := by
  induction l₁ with
  | nil =>
    rw [List.nil_append, List.dropWhile_cons, ha]
    simp
  | cons c t ih =>
    rw [List.cons_append, List.dropWhile_cons, h c (List.mem_cons_self _ _)]
    rw [ih (fun x hx => h x (List.mem_cons_of_mem _ hx))]
    simp

/-- The key search at the exact key position returns the newline-free value
following the key. -/
theorem searchKeyVal_exact (key v rest : List Char) (hkey : key ≠ [])
    (hv : v ≠ []) (hnl : '\n' ∉ v) :
    searchKeyVal key (key ++ (v ++ '\n' :: rest)) = some v := by
  obtain ⟨k, kt, hk⟩ : ∃ k kt, key = k :: kt := by
    cases key with
    | nil => exact absurd rfl hkey
    | cons k kt => exact ⟨k, kt, rfl⟩
  subst hk
  rw [List.cons_append, searchKeyVal]
  have hpre : (k :: kt).isPrefixOf (k :: (kt ++ (v ++ '\n' :: rest))) = true := by
    rw [isPrefixOf_eq_true_iff]
    exact ⟨v ++ '\n' :: rest, by simp⟩
  simp only [hpre, if_true]
  have hdrop : (k :: (kt ++ (v ++ '\n' :: rest))).drop (k :: kt).length =
      v ++ '\n' :: rest := by
    rw [List.length_cons, List.drop_succ_cons, List.drop_left]
  rw [hdrop]
  have htake : (v ++ '\n' :: rest).takeWhile (fun x => x ≠ '\n') = v := by
    apply takeWhile_append_cons_stop
    · intro c hc
      simp only [decide_eq_true_eq]
      exact fun he => hnl (he ▸ hc)
    · simp
  rw [htake]
  rw [if_neg hv]

/-- Drop-while is the identity on a string starting with non-whitespace. -/
theorem dropWhile_eq_self_of_headNonspace (s : List Char)
    (h : headNonspace s = true) : s.dropWhile pyIsSpace = s := by
  cases s with
  | nil => rfl
  | cons c t =>
    rw [List.dropWhile_cons]
    simp only [headNonspace, Bool.not_eq_true'] at h
    rw [h]
    simp

/-- Strip is the identity on a string with non-whitespace ends. -/
theorem pyStrip_eq_self_of_ends (s : List Char)
    (h1 : headNonspace s = true) (h2 : headNonspace s.reverse = true) :
    pyStrip s = s := by
  unfold pyStrip
  rw [dropWhile_eq_self_of_headNonspace s h1]
  rw [dropWhile_eq_self_of_headNonspace s.reverse h2]
  exact List.reverse_reverse s

/-- Strip swallows a leading whitespace character. -/
theorem pyStrip_cons_space (c : Char) (s : List Char) (hc : pyIsSpace c = true) :
    pyStrip (c :: s) = pyStrip s := by
  unfold pyStrip
  rw [List.dropWhile_cons, hc]
  simp

/-- The head test only looks at the left part of an append. -/
theorem headNonspace_append (x y : List Char) (hx : x ≠ []) :
    headNonspace (x ++ y) = headNonspace x := by
  cases x with
  | nil => exact absurd rfl hx
  | cons c t => rfl

/-- The last-character test of an append with nonempty right part. -/
theorem headNonspace_reverse_append (x y : List Char) (hy : y ≠ []) :
    headNonspace (x ++ y).reverse = headNonspace y.reverse := by
  rw [List.reverse_append]
  exact headNonspace_append _ _ (by simpa using hy)

/-- The last-character test past a leading character. -/
theorem headNonspace_reverse_cons (c : Char) (y : List Char) (hy : y ≠ []) :
    headNonspace (c :: y).reverse = headNonspace y.reverse := by
  have h : c :: y = [c] ++ y := rfl
  rw [h]
  exact headNonspace_reverse_append [c] y hy

/-- Unpacking of the field well-formedness predicate. -/
theorem cleanField_spec (s : List Char) (h : cleanField s = true) :
    s ≠ [] ∧ headNonspace s = true ∧ headNonspace s.reverse = true ∧
    '\n' ∉ s ∧ '|' ∉ s ∧
    containsSub openMarker s = false ∧ containsSub closeMarker s = false ∧
    containsSub textBlockKey s = false ∧
    containsSub (pOriginalFont ++ [':', ' ']) s = false ∧
    containsSub (pOriginalStyle ++ [':', ' ']) s = false ∧
    containsSub (pReplacedWith ++ [':', ' ']) s = false ∧
    containsSub (pTimestamp ++ [':', ' ']) s = false ∧
    containsSub (pRestoreId ++ [':', ' ']) s = false := by
  simp only [cleanField, Bool.and_eq_true, decide_eq_true_eq, Bool.not_eq_true'] at h
  tauto

/-- Strip is the identity on well-formed field values. -/
theorem pyStrip_clean (s : List Char) (h : cleanField s = true) : pyStrip s = s :=
  pyStrip_eq_self_of_ends s (cleanField_spec s h).2.1 (cleanField_spec s h).2.2.1

/-- Splitting a newline-free string yields that single line. -/
theorem splitNL_no_newline (a : List Char) (h : '\n' ∉ a) : splitNL a = [a] := by
  induction a with
  | nil => rfl
  | cons c t ih =>
    rw [splitNL]
    rw [if_neg (by intro hc; apply h; rw [hc]; exact List.mem_cons_self _ _)]
    rw [ih (fun hm => h (List.mem_cons_of_mem _ hm))]

/-- Splitting peels one newline-free line off the front. -/
theorem splitNL_append_cons (a rest : List Char) (h : '\n' ∉ a) :
    splitNL (a ++ '\n' :: rest) = a :: splitNL rest := by
  induction a with
  | nil =>
    rw [List.nil_append, splitNL]
    simp
  | cons c t ih =>
    rw [List.cons_append, splitNL]
    rw [if_neg (by intro hc; apply h; rw [hc]; exact List.mem_cons_self _ _)]
    rw [ih (fun hm => h (List.mem_cons_of_mem _ hm))]

/-- The field line rewritten as its search key followed by the value. -/
theorem fieldLine_eq (p v : List Char) : fieldLine p v = (p ++ [':', ' ']) ++ v := by
  simp [fieldLine]

/-- The stripped template is the marker-delimited body: the template's leading
newline goes, and the body keeps its bracket ends. -/
theorem create_restore_tag_eq_tagBody (of' os' rf rs rid ts : List Char) :
    create_restore_tag of' os' rf rs rid ts = tagBody of' os' rf rs ts rid := by
  unfold create_restore_tag restoreTagTemplate
  rw [pyStrip_cons_space '\n' _ (by decide)]
  apply pyStrip_eq_self_of_ends
  · unfold tagBody
    rw [headNonspace_append _ _ (by decide)]
    decide
  · unfold tagBody
    have hne : ∀ x : List Char, ∀ r : List Char, x ++ '\n' :: r ≠ [] := by
      intro x r hx
      cases x with
      | nil => cases hx
      | cons a b => cases hx
    rw [headNonspace_reverse_append _ _ (by intro hc; cases hc)]
    rw [headNonspace_reverse_cons _ _ (hne _ _)]
    rw [headNonspace_reverse_append _ _ (by intro hc; cases hc)]
    rw [headNonspace_reverse_cons _ _ (hne _ _)]
    rw [headNonspace_reverse_append _ _ (by intro hc; cases hc)]
    rw [headNonspace_reverse_cons _ _ (hne _ _)]
    rw [headNonspace_reverse_append _ _ (by intro hc; cases hc)]
    rw [headNonspace_reverse_cons _ _ (hne _ _)]
    rw [headNonspace_reverse_append _ _ (by intro hc; cases hc)]
    rw [headNonspace_reverse_cons _ _ (hne _ _)]
    rw [headNonspace_reverse_append _ _ (by intro hc; cases hc)]
    rw [headNonspace_reverse_cons _ _ (by intro hc; cases hc)]
    decide

/-- Membership-driven containment accessor for well-formed fields. -/
theorem cleanField_not_contains (s key : List Char) (h : cleanField s = true)
    (hk : key ∈ [openMarker, closeMarker, textBlockKey,
      pOriginalFont ++ [':', ' '], pOriginalStyle ++ [':', ' '],
      pReplacedWith ++ [':', ' '], pTimestamp ++ [':', ' '],
      pRestoreId ++ [':', ' ']]) :
    containsSub key s = false := by
  have hs := cleanField_spec s h
  fin_cases hk <;> tauto

/-- Containment of a key in a field line is ruled out componentwise. -/
theorem containsSub_fieldLine_false (key p v : List Char)
    (h1 : containsSub key (p ++ [':', ' ']) = false)
    (hstr : ∀ n, n < (p ++ [':', ' ']).length →
      (((p ++ [':', ' ']).drop n).isPrefixOf key) = false)
    (h2 : containsSub key v = false) :
    containsSub key (fieldLine p v) = false := by
  rw [fieldLine_eq]
  exact containsSub_append_eq_false key _ v h1 h2 hstr

/-- The key search skips the opening-marker line. -/
theorem searchKeyVal_skip_open (key B : List Char) (hkey : key ≠ [])
    (hnl : '\n' ∉ key) (hop : containsSub key openMarker = false) :
    searchKeyVal key (openMarker ++ '\n' :: B) = searchKeyVal key B :=
  searchKeyVal_append_cons key openMarker B '\n' hkey hnl hop

/-- The key search skips a foreign field line. -/
theorem searchKeyVal_skip_fieldLine (key p v B : List Char)
    (hkey : key ≠ []) (hnl : '\n' ∉ key)
    (hkp : containsSub key (p ++ [':', ' ']) = false)
    (hstr : ∀ n, n < (p ++ [':', ' ']).length →
      (((p ++ [':', ' ']).drop n).isPrefixOf key) = false)
    (hv : containsSub key v = false) :
    searchKeyVal key (fieldLine p v ++ '\n' :: B) = searchKeyVal key B :=
  searchKeyVal_append_cons key (fieldLine p v) B '\n' hkey hnl
    (containsSub_fieldLine_false key p v hkp hstr hv)

/-- The key search lands on its own field line and returns the value. -/
theorem searchKeyVal_fieldLine_exact (p v B : List Char)
    (hp : (p ++ [':', ' ']) ≠ []) (hv : v ≠ []) (hnl : '\n' ∉ v) :
    searchKeyVal (p ++ [':', ' ']) (fieldLine p v ++ '\n' :: B) = some v := by
  have hassoc : fieldLine p v ++ '\n' :: B = (p ++ [':', ' ']) ++ (v ++ '\n' :: B) := by
    rw [fieldLine_eq, List.append_assoc]
  rw [hassoc]
  exact searchKeyVal_exact _ _ _ hp hv hnl

/-- Extraction of each of the five wire-format fields from an instantiated
tag body with well-formed field values. -/
theorem tagBody_extracts (of' os' rf rs rid ts : List Char)
    (h1 : cleanField of' = true) (h2 : cleanField os' = true)
    (h3 : cleanField rf = true) (h4 : cleanField rs = true)
    (h5 : cleanField rid = true) (h6 : cleanField ts = true) :
    extract_tag_value (tagBody of' os' rf rs ts rid) pOriginalFont = some of' ∧
    extract_tag_value (tagBody of' os' rf rs ts rid) pOriginalStyle = some os' ∧
    extract_tag_value (tagBody of' os' rf rs ts rid) pReplacedWith =
      some (rf ++ '|' :: rs) ∧
    extract_tag_value (tagBody of' os' rf rs ts rid) pTimestamp = some ts ∧
    extract_tag_value (tagBody of' os' rf rs ts rid) pRestoreId = some rid := by
  have hrw_ne : rf ++ '|' :: rs ≠ [] := by
    cases rf <;> simp
  have hrw_nl : '\n' ∉ rf ++ '|' :: rs := by
    intro hm
    rw [List.mem_append] at hm
    cases hm with
    | inl hm2 => exact (cleanField_spec rf h3).2.2.2.1 hm2
    | inr hm2 =>
      cases hm2 with
      | tail _ hm3 => exact (cleanField_spec rs h4).2.2.2.1 hm3
  have hstrip_rw : pyStrip (rf ++ '|' :: rs) = rf ++ '|' :: rs := by
    apply pyStrip_eq_self_of_ends
    · rw [headNonspace_append _ _ (cleanField_spec rf h3).1]
      exact (cleanField_spec rf h3).2.1
    · rw [headNonspace_reverse_append _ _ (by simp : ('|' :: rs : List Char) ≠ [])]
      rw [headNonspace_reverse_cons _ _ (cleanField_spec rs h4).1]
      exact (cleanField_spec rs h4).2.2.1
  have hrwline : ∀ key : List Char, key ≠ [] → '|' ∉ key →
      containsSub key rf = false → containsSub key rs = false →
      containsSub key (rf ++ '|' :: rs) = false := by
    intro key hk hb hrf hrs
    exact containsSub_append_cons_eq_false key rf rs '|' hk hb hrf hrs
  refine ⟨?_, ?_, ?_, ?_, ?_⟩
  · unfold extract_tag_value tagBody
    rw [searchKeyVal_skip_open _ _ (by decide) (by decide) (by decide)]
    rw [searchKeyVal_fieldLine_exact _ _ _ (by decide)
      (cleanField_spec of' h1).1 (cleanField_spec of' h1).2.2.2.1]
    simp only [Option.map_some']
    rw [pyStrip_clean of' h1]
  · unfold extract_tag_value tagBody
    rw [searchKeyVal_skip_open _ _ (by decide) (by decide) (by decide)]
    rw [searchKeyVal_skip_fieldLine _ _ _ _ (by decide) (by decide) (by decide)
      (by decide) (cleanField_not_contains of' _ h1 (by simp))]
    rw [searchKeyVal_fieldLine_exact _ _ _ (by decide)
      (cleanField_spec os' h2).1 (cleanField_spec os' h2).2.2.2.1]
    simp only [Option.map_some']
    rw [pyStrip_clean os' h2]
  · unfold extract_tag_value tagBody
    rw [searchKeyVal_skip_open _ _ (by decide) (by decide) (by decide)]
    rw [searchKeyVal_skip_fieldLine _ _ _ _ (by decide) (by decide) (by decide)
      (by decide) (cleanField_not_contains of' _ h1 (by simp))]
    rw [searchKeyVal_skip_fieldLine _ _ _ _ (by decide) (by decide) (by decide)
      (by decide) (cleanField_not_contains os' _ h2 (by simp))]
    rw [searchKeyVal_fieldLine_exact _ _ _ (by decide) hrw_ne hrw_nl]
    simp only [Option.map_some']
    rw [hstrip_rw]
  · unfold extract_tag_value tagBody
    rw [searchKeyVal_skip_open _ _ (by decide) (by decide) (by decide)]
    rw [searchKeyVal_skip_fieldLine _ _ _ _ (by decide) (by decide) (by decide)
      (by decide) (cleanField_not_contains of' _ h1 (by simp))]
    rw [searchKeyVal_skip_fieldLine _ _ _ _ (by decide) (by decide) (by decide)
      (by decide) (cleanField_not_contains os' _ h2 (by simp))]
    rw [searchKeyVal_skip_fieldLine _ _ _ _ (by decide) (by decide) (by decide)
      (by decide) (hrwline _ (by decide) (by decide)
        (cleanField_not_contains rf _ h3 (by simp))
        (cleanField_not_contains rs _ h4 (by simp)))]
    rw [searchKeyVal_fieldLine_exact _ _ _ (by decide)
      (cleanField_spec ts h6).1 (cleanField_spec ts h6).2.2.2.1]
    simp only [Option.map_some']
    rw [pyStrip_clean ts h6]
  · unfold extract_tag_value tagBody
    rw [searchKeyVal_skip_open _ _ (by decide) (by decide) (by decide)]
    rw [searchKeyVal_skip_fieldLine _ _ _ _ (by decide) (by decide) (by decide)
      (by decide) (cleanField_not_contains of' _ h1 (by simp))]
    rw [searchKeyVal_skip_fieldLine _ _ _ _ (by decide) (by decide) (by decide)
      (by decide) (cleanField_not_contains os' _ h2 (by simp))]
    rw [searchKeyVal_skip_fieldLine _ _ _ _ (by decide) (by decide) (by decide)
      (by decide) (hrwline _ (by decide) (by decide)
        (cleanField_not_contains rf _ h3 (by simp))
        (cleanField_not_contains rs _ h4 (by simp)))]
    rw [searchKeyVal_skip_fieldLine _ _ _ _ (by decide) (by decide) (by decide)
      (by decide) (cleanField_not_contains ts _ h6 (by simp))]
    rw [searchKeyVal_fieldLine_exact _ _ _ (by decide)
      (cleanField_spec rid h5).1 (cleanField_spec rid h5).2.2.2.1]
    simp only [Option.map_some']
    rw [pyStrip_clean rid h5]

/-- A field line contains no newline when its value does not. -/
theorem fieldLine_no_newline (p v : List Char) (hp : '\n' ∉ p ++ [':', ' '])
    (hv : '\n' ∉ v) : '\n' ∉ fieldLine p v := by
  rw [fieldLine_eq]
  intro hm
  rw [List.mem_append] at hm
  cases hm with
  | inl h2 => exact hp h2
  | inr h2 => exact hv h2

/-- Newline-freedom of the combined `replaced_with` value. -/
theorem rw_value_no_newline (rf rs : List Char)
    (h3 : cleanField rf = true) (h4 : cleanField rs = true) :
    '\n' ∉ rf ++ '|' :: rs := by
  intro hm
  rw [List.mem_append] at hm
  cases hm with
  | inl hm2 => exact (cleanField_spec rf h3).2.2.2.1 hm2
  | inr hm2 =>
    cases hm2 with
    | tail _ hm3 => exact (cleanField_spec rs h4).2.2.2.1 hm3

/-- Splitting an instantiated tag body recovers its seven lines. -/
theorem splitNL_tagBody (of' os' rf rs rid ts : List Char)
    (h1 : cleanField of' = true) (h2 : cleanField os' = true)
    (h3 : cleanField rf = true) (h4 : cleanField rs = true)
    (h5 : cleanField rid = true) (h6 : cleanField ts = true) :
    splitNL (tagBody of' os' rf rs ts rid) =
      [openMarker, fieldLine pOriginalFont of', fieldLine pOriginalStyle os',
        fieldLine pReplacedWith (rf ++ '|' :: rs), fieldLine pTimestamp ts,
        fieldLine pRestoreId rid, closeMarker] := by
  unfold tagBody
  rw [splitNL_append_cons _ _ (by decide)]
  rw [splitNL_append_cons _ _ (fieldLine_no_newline _ _ (by decide)
    (cleanField_spec of' h1).2.2.2.1)]
  rw [splitNL_append_cons _ _ (fieldLine_no_newline _ _ (by decide)
    (cleanField_spec os' h2).2.2.2.1)]
  rw [splitNL_append_cons _ _ (fieldLine_no_newline _ _ (by decide)
    (rw_value_no_newline rf rs h3 h4))]
  rw [splitNL_append_cons _ _ (fieldLine_no_newline _ _ (by decide)
    (cleanField_spec ts h6).2.2.2.1)]
  rw [splitNL_append_cons _ _ (fieldLine_no_newline _ _ (by decide)
    (cleanField_spec rid h5).2.2.2.1)]
  rw [splitNL_no_newline _ (by decide)]

/-- One collection step over a line free of the closing marker. -/
theorem collectTag_cons_no_close (l : List Char) (ls : List (List Char))
    (hl : containsSub closeMarker l = false) (c : List (List Char))
    (rem : List (List Char)) (h : collectTag ls = some (c, rem)) :
    collectTag (l :: ls) = some (l :: c, rem) := by
  rw [collectTag, hl]
  simp only [Bool.false_eq_true, if_false]
  rw [h]

/-- A field line is free of the closing marker when its value is. -/
theorem fieldLine_no_close (p v : List Char)
    (h1 : containsSub closeMarker (p ++ [':', ' ']) = false)
    (hstr : ∀ n, n < (p ++ [':', ' ']).length →
      (((p ++ [':', ' ']).drop n).isPrefixOf closeMarker) = false)
    (h2 : containsSub closeMarker v = false) :
    containsSub closeMarker (fieldLine p v) = false :=
  containsSub_fieldLine_false closeMarker p v h1 hstr h2

/-- Collecting the seven lines of an instantiated tag consumes them all. -/
theorem collectTag_tagLines (of' os' rf rs rid ts : List Char)
    (h1 : cleanField of' = true) (h2 : cleanField os' = true)
    (h3 : cleanField rf = true) (h4 : cleanField rs = true)
    (h5 : cleanField rid = true) (h6 : cleanField ts = true) :
    collectTag [openMarker, fieldLine pOriginalFont of',
        fieldLine pOriginalStyle os',
        fieldLine pReplacedWith (rf ++ '|' :: rs), fieldLine pTimestamp ts,
        fieldLine pRestoreId rid, closeMarker] =
      some ([openMarker, fieldLine pOriginalFont of',
        fieldLine pOriginalStyle os',
        fieldLine pReplacedWith (rf ++ '|' :: rs), fieldLine pTimestamp ts,
        fieldLine pRestoreId rid, closeMarker], []) := by
  have hc0 : collectTag [closeMarker] = some ([closeMarker], []) := by decide
  have hc1 := collectTag_cons_no_close (fieldLine pRestoreId rid) [closeMarker]
    (fieldLine_no_close _ _ (by decide) (by decide)
      (cleanField_not_contains rid _ h5 (by simp))) _ _ hc0
  have hc2 := collectTag_cons_no_close (fieldLine pTimestamp ts) _
    (fieldLine_no_close _ _ (by decide) (by decide)
      (cleanField_not_contains ts _ h6 (by simp))) _ _ hc1
  have hc3 := collectTag_cons_no_close (fieldLine pReplacedWith (rf ++ '|' :: rs)) _
    (fieldLine_no_close _ _ (by decide) (by decide)
      (containsSub_append_cons_eq_false closeMarker rf rs '|' (by decide) (by decide)
        (cleanField_not_contains rf _ h3 (by simp))
        (cleanField_not_contains rs _ h4 (by simp)))) _ _ hc2
  have hc4 := collectTag_cons_no_close (fieldLine pOriginalStyle os') _
    (fieldLine_no_close _ _ (by decide) (by decide)
      (cleanField_not_contains os' _ h2 (by simp))) _ _ hc3
  have hc5 := collectTag_cons_no_close (fieldLine pOriginalFont of') _
    (fieldLine_no_close _ _ (by decide) (by decide)
      (cleanField_not_contains of' _ h1 (by simp))) _ _ hc4
  have hc6 := collectTag_cons_no_close openMarker _ (by decide) _ _ hc5
  exact hc6

/-- Building the tag record from the seven collected lines of an instantiated
tag yields exactly the encoded fields. -/
theorem buildTagData_tagLines (of' os' rf rs rid ts : List Char)
    (h1 : cleanField of' = true) (h2 : cleanField os' = true)
    (h3 : cleanField rf = true) (h4 : cleanField rs = true)
    (h5 : cleanField rid = true) (h6 : cleanField ts = true) :
    buildTagData none [openMarker, fieldLine pOriginalFont of',
        fieldLine pOriginalStyle os',
        fieldLine pReplacedWith (rf ++ '|' :: rs), fieldLine pTimestamp ts,
        fieldLine pRestoreId rid, closeMarker] =
      [{ original_font := of', original_style := os',
         replacement_font := some rf, replacement_style := some rs,
         text_block := none, full_tag := tagBody of' os' rf rs ts rid }] := by
  have hjoin : joinNL [openMarker, fieldLine pOriginalFont of',
      fieldLine pOriginalStyle os',
      fieldLine pReplacedWith (rf ++ '|' :: rs), fieldLine pTimestamp ts,
      fieldLine pRestoreId rid, closeMarker] = tagBody of' os' rf rs ts rid := by
    rfl
  have hex := tagBody_extracts of' os' rf rs rid ts h1 h2 h3 h4 h5 h6
  simp only [buildTagData, hjoin, hex.1, hex.2.1, hex.2.2.1, hex.2.2.2.1,
    hex.2.2.2.2]
  have hcond : (rf ++ '|' :: rs ≠ [] ∧ '|' ∈ rf ++ '|' :: rs) := by
    constructor
    · cases rf <;> simp
    · rw [List.mem_append]
      right
      exact List.mem_cons_self _ _
  rw [if_pos hcond]
  have htw : (rf ++ '|' :: rs).takeWhile (fun c => c ≠ '|') = rf := by
    apply takeWhile_append_cons_stop
    · intro c hc
      simp only [decide_eq_true_eq]
      exact fun he => (cleanField_spec rf h3).2.2.2.2.1 (he ▸ hc)
    · simp
  have hdw : (rf ++ '|' :: rs).dropWhile (fun c => c ≠ '|') = '|' :: rs := by
    apply dropWhile_append_cons_stop
    · intro c hc
      simp only [decide_eq_true_eq]
      exact fun he => (cleanField_spec rf h3).2.2.2.2.1 (he ▸ hc)
    · simp
  rw [htw, hdw]
  rw [if_pos ⟨(cleanField_spec of' h1).1, (cleanField_spec os' h2).1⟩]
  simp

/-- C1: decoding the text produced by encoding a restoration tag with
well-formed field values yields exactly one tag whose original and replacement
fields equal the encoded ones, whose full text is the encoded tag itself, and
from whose text the repository's own field extractor recovers the encoded
timestamp and session id verbatim. -/
theorem C1_decode_encode_roundtrip (of' os' rf rs rid ts : List Char)
    (h1 : cleanField of' = true) (h2 : cleanField os' = true)
    (h3 : cleanField rf = true) (h4 : cleanField rs = true)
    (h5 : cleanField rid = true) (h6 : cleanField ts = true) :
    parse_all_restore_tags_from_comments (create_restore_tag of' os' rf rs rid ts) =
      [{ original_font := of', original_style := os',
         replacement_font := some rf, replacement_style := some rs,
         text_block := none,
         full_tag := create_restore_tag of' os' rf rs rid ts }] ∧
    extract_tag_value (create_restore_tag of' os' rf rs rid ts) pTimestamp = some ts ∧
    extract_tag_value (create_restore_tag of' os' rf rs rid ts) pRestoreId = some rid := by
  have hbody := create_restore_tag_eq_tagBody of' os' rf rs rid ts
  have hex := tagBody_extracts of' os' rf rs rid ts h1 h2 h3 h4 h5 h6
  refine ⟨?_, ?_, ?_⟩
  · unfold parse_all_restore_tags_from_comments
    rw [hbody]
    rw [splitNL_tagBody of' os' rf rs rid ts h1 h2 h3 h4 h5 h6]
    rw [parseLines_legacy_collect _ _ _ _ (by decide) (by decide)
      (collectTag_tagLines of' os' rf rs rid ts h1 h2 h3 h4 h5 h6)]
    rw [buildTagData_tagLines of' os' rf rs rid ts h1 h2 h3 h4 h5 h6]
    rw [parseLines_nil, List.append_nil]
  · rw [hbody]
    exact hex.2.2.2.1
  · rw [hbody]
    exact hex.2.2.2.2

/-- Witness for C1 at a concrete tag. -/
theorem C1_witness :
    parse_all_restore_tags_from_comments (create_restore_tag ("Helvetica").toList
        ("Regular").toList ("Arial").toList ("Bold").toList
        ("20240101_120000_000").toList ("2024-01-01T12:00:00").toList) =
      [{ original_font := ("Helvetica").toList, original_style := ("Regular").toList,
         replacement_font := some (("Arial").toList),
         replacement_style := some (("Bold").toList),
         text_block := none,
         full_tag := create_restore_tag ("Helvetica").toList ("Regular").toList
           ("Arial").toList ("Bold").toList ("20240101_120000_000").toList
           ("2024-01-01T12:00:00").toList }] :=
  (C1_decode_encode_roundtrip (("Helvetica").toList) (("Regular").toList)
    (("Arial").toList) (("Bold").toList) (("20240101_120000_000").toList)
    (("2024-01-01T12:00:00").toList) (by decide) (by decide) (by decide)
    (by decide) (by decide) (by decide)).1

/-! ### Frame lemmas for tag removal (claim C3) -/

/-- An append ending in a cons is nonempty. -/
theorem append_cons_ne_nil (x : List Char) (c : Char) (r : List Char) :
    x ++ c :: r ≠ [] := by
  cases x with
  | nil => intro h; cases h
  | cons a b => intro h; cases h

/-- A suffix of an append is a suffix of the right part or extends it by a
suffix of the left part. -/
theorem suffix_append_cases (s X Y : List Char) (h : s <:+ X ++ Y) :
    s <:+ Y ∨ ∃ t, t <:+ X ∧ s = t ++ Y := by
  have hs := List.suffix_iff_eq_drop.mp h
  by_cases hge : X.length ≤ (X ++ Y).length - s.length
  · left
    rw [hs, List.drop_append_eq_append_drop, List.drop_eq_nil_of_le hge,
      List.nil_append]
    exact List.drop_suffix _ _
  · right
    have h0 : (X ++ Y).length - s.length - X.length = 0 := by omega
    refine ⟨X.drop ((X ++ Y).length - s.length), List.drop_suffix _ _, ?_⟩
    conv_lhs => rw [hs]
    rw [List.drop_append_eq_append_drop, h0, List.drop_zero]

/-- Appending on the right preserves the suffix relation. -/
theorem suffix_append_both (a b t : List Char) (h : a <:+ b) : a ++ t <:+ b ++ t := by
  obtain ⟨p, hp⟩ := h
  exact ⟨p, by rw [← List.append_assoc, hp]⟩

/-- Newline-free segments followed by a newline align in a prefix relation. -/
theorem seg_prefix_eq (a : List Char) : ∀ (b ta tb : List Char), '\n' ∉ a → '\n' ∉ b →
    (a ++ '\n' :: ta <+: b ++ '\n' :: tb) → a = b ∧ ta <+: tb := by
  induction a with
  | nil =>
    intro b ta tb _ hb h
    cases b with
    | nil =>
      rw [List.nil_append, List.nil_append] at h
      exact ⟨rfl, (List.cons_prefix_cons.mp h).2⟩
    | cons x b2 =>
      rw [List.nil_append, List.cons_append] at h
      obtain ⟨hx, _⟩ := List.cons_prefix_cons.mp h
      exact absurd (by rw [← hx]; exact List.mem_cons_self _ _) hb
  | cons c a2 ih =>
    intro b ta tb ha hb h
    cases b with
    | nil =>
      rw [List.cons_append, List.nil_append] at h
      obtain ⟨hc, _⟩ := List.cons_prefix_cons.mp h
      exact absurd (by rw [hc]; exact List.mem_cons_self _ _) ha
    | cons x b2 =>
      rw [List.cons_append, List.cons_append] at h
      obtain ⟨hc, h2⟩ := List.cons_prefix_cons.mp h
      have ha2 : '\n' ∉ a2 := fun hm => ha (List.mem_cons_of_mem _ hm)
      have hb2 : '\n' ∉ b2 := fun hm => hb (List.mem_cons_of_mem _ hm)
      obtain ⟨he, hp⟩ := ih b2 ta tb ha2 hb2 h2
      exact ⟨by rw [hc, he], hp⟩

/-- Bar-free segments joined by a bar separator are injective components. -/
theorem bar_append_inj (a : List Char) : ∀ (b c d : List Char), '|' ∉ a → '|' ∉ c →
    (a ++ '|' :: b = c ++ '|' :: d) → a = c ∧ b = d := by
  induction a with
  | nil =>
    intro b c d _ hc h
    cases c with
    | nil =>
      rw [List.nil_append, List.nil_append] at h
      exact ⟨rfl, (List.cons.injEq _ _ _ _).mp h |>.2⟩
    | cons x c2 =>
      rw [List.nil_append, List.cons_append] at h
      obtain ⟨hx, _⟩ := (List.cons.injEq _ _ _ _).mp h
      exact absurd (by rw [← hx]; exact List.mem_cons_self _ _) hc
  | cons y a2 ih =>
    intro b c d ha hc h
    cases c with
    | nil =>
      rw [List.cons_append, List.nil_append] at h
      obtain ⟨hy, _⟩ := (List.cons.injEq _ _ _ _).mp h
      exact absurd (by rw [hy]; exact List.mem_cons_self _ _) ha
    | cons x c2 =>
      rw [List.cons_append, List.cons_append] at h
      obtain ⟨hy, h2⟩ := (List.cons.injEq _ _ _ _).mp h
      have ha2 : '|' ∉ a2 := fun hm => ha (List.mem_cons_of_mem _ hm)
      have hc2 : '|' ∉ c2 := fun hm => hc (List.mem_cons_of_mem _ hm)
      obtain ⟨he, hb⟩ := ih b c2 d ha2 hc2 h2
      exact ⟨by rw [hy, he], hb⟩

/-- The whitespace prefix of a string with non-whitespace head is empty. -/
theorem takeWhile_nil_of_headNonspace (s : List Char) (h : headNonspace s = true) :
    s.takeWhile pyIsSpace = [] := by
  cases s with
  | nil => rfl
  | cons c t =>
    simp only [headNonspace, Bool.not_eq_true'] at h
    rw [List.takeWhile_cons, h]
    rfl

/-- A string with non-whitespace head offers no `\s*\n` match at its start. -/
theorem starNLCandidates_nil_of_headNonspace (s : List Char)
    (h : headNonspace s = true) : starNLCandidates s = [] := by
  unfold starNLCandidates
  rw [takeWhile_nil_of_headNonspace s h]
  rfl

/-- The collapse pattern does not match where no whitespace-and-newline run
starts. -/
theorem matchTripleNL_none_of_headNonspace (s : List Char)
    (h : headNonspace s = true) : matchTripleNL s = none := by
  unfold matchTripleNL
  rw [starNLCandidates_nil_of_headNonspace s h]
  rfl

/-- A lone newline followed by non-whitespace text does not complete the
collapse pattern: two more newlines would be required. -/
theorem matchTripleNL_single_nl (t : List Char) (h : headNonspace t = true) :
    matchTripleNL ('\n' :: t) = none := by
  have htw : ('\n' :: t).takeWhile pyIsSpace = ['\n'] := by
    rw [List.takeWhile_cons]
    rw [takeWhile_nil_of_headNonspace t h]
    rfl
  unfold matchTripleNL starNLCandidates
  rw [htw]
  have hidx : nlIndices ['\n'] = [0] := by decide
  rw [hidx]
  simp only [List.reverse_cons, List.reverse_nil, List.nil_append, List.map_cons,
    List.map_nil, List.drop_succ_cons, List.drop_zero]
  rw [matchTripleGo]
  rw [starNLCandidates_nil_of_headNonspace t h]
  rfl

/-- Unfolding equation of the collapse scan: a newline whose right context does
not complete the pattern is copied. -/
theorem pyCollapseSub_cons_nl_none (rest : List Char)
    (hm : matchTripleNL rest = none) :
    pyCollapseSub ('\n' :: rest) = '\n' :: pyCollapseSub rest := by
  rw [pyCollapseSub]
  rw [if_pos rfl]
  split
  · rename_i rem heq
    rw [hm] at heq
    cases heq
  · rfl

/-- Unfolding equation of the collapse scan: a non-newline character is
copied. -/
theorem pyCollapseSub_cons_other (c : Char) (rest : List Char) (hc : c ≠ '\n') :
    pyCollapseSub (c :: rest) = c :: pyCollapseSub rest := by
  rw [pyCollapseSub]
  rw [if_neg hc]

/-- The collapse is the identity when no position of the string starts a
three-newline whitespace run. -/
theorem pyCollapseSub_eq_self (cs : List Char)
    (h : ∀ s, ('\n' :: s) <:+ cs → matchTripleNL s = none) :
    pyCollapseSub cs = cs := by
  induction cs with
  | nil => rw [pyCollapseSub]
  | cons c rest ih =>
    have hrest : ∀ s, ('\n' :: s) <:+ rest → matchTripleNL s = none := fun s hs =>
      h s (hs.trans (List.suffix_cons c rest))
    by_cases hc : c = '\n'
    · subst hc
      rw [pyCollapseSub_cons_nl_none rest (h rest (List.suffix_refl _))]
      rw [ih hrest]
    · rw [pyCollapseSub_cons_other c rest hc, ih hrest]

/-- Replacement in the empty string is empty. -/
theorem pyReplace_nil (pat rep : List Char) (hpat : pat ≠ []) :
    pyReplace [] pat rep = [] := by
  have hp : pat.isPrefixOf ([] : List Char) = false := by
    cases pat with
    | nil => exact absurd rfl hpat
    | cons a as => rfl
  rw [pyReplace, dif_neg hpat, dif_neg (by rw [hp]; exact Bool.false_ne_true)]

/-- Unfolding equation of the replacement scan at a non-matching position. -/
theorem pyReplace_cons_no_match (c : Char) (rest pat rep : List Char)
    (hpat : pat ≠ []) (hp : pat.isPrefixOf (c :: rest) = false) :
    pyReplace (c :: rest) pat rep = c :: pyReplace rest pat rep := by
  rw [pyReplace, dif_neg hpat, dif_neg (by rw [hp]; exact Bool.false_ne_true)]

/-- Unfolding equation of the replacement scan at a matching position. -/
theorem pyReplace_prefix_match (cs pat rep : List Char) (hpat : pat ≠ [])
    (hp : pat.isPrefixOf cs = true) :
    pyReplace cs pat rep = rep ++ pyReplace (cs.drop pat.length) pat rep := by
  rw [pyReplace, dif_neg hpat, dif_pos hp]

/-- The replacement scan fires exactly at an aligned occurrence of the
pattern. -/
theorem pyReplace_head_match (R pat rep : List Char) (hpat : pat ≠ []) :
    pyReplace (pat ++ R) pat rep = rep ++ pyReplace R pat rep := by
  rw [pyReplace_prefix_match (pat ++ R) pat rep hpat
    ((isPrefixOf_eq_true_iff _ _).mpr (List.prefix_append _ _))]
  rw [List.drop_left]

/-- The replacement scan copies a left block none of whose positions starts an
occurrence of the pattern. -/
theorem pyReplace_append_no_occ (X R pat rep : List Char) (hpat : pat ≠ [])
    (h : ∀ s, s <:+ X → s ≠ [] → pat.isPrefixOf (s ++ R) = false) :
    pyReplace (X ++ R) pat rep = X ++ pyReplace R pat rep := by
  induction X with
  | nil => rw [List.nil_append, List.nil_append]
  | cons c X2 ih =>
    have hp : pat.isPrefixOf (c :: (X2 ++ R)) = false := by
      have := h (c :: X2) (List.suffix_refl _) (by intro hc; cases hc)
      rw [List.cons_append] at this
      exact this
    rw [List.cons_append, pyReplace_cons_no_match c (X2 ++ R) pat rep hpat hp]
    rw [ih (fun s hs hne => h s (hs.trans (List.suffix_cons c X2)) hne)]
    rfl

/-- The replacement is the identity on a string without any occurrence of the
pattern. -/
theorem pyReplace_no_occ (X pat rep : List Char) (hpat : pat ≠ [])
    (h : ∀ s, s <:+ X → s ≠ [] → pat.isPrefixOf s = false) :
    pyReplace X pat rep = X := by
  have h2 := pyReplace_append_no_occ X [] pat rep hpat (fun s hs hne => by
    rw [List.append_nil]
    exact h s hs hne)
  rw [List.append_nil] at h2
  rw [h2, pyReplace_nil pat rep hpat, List.append_nil]

/-- The instantiated tag body as an explicit cons: its head is the opening
bracket of the opening marker. -/
theorem tagBody_eq_cons (u1 u2 u3 u4 u5 u6 : List Char) :
    tagBody u1 u2 u3 u4 u5 u6 =
      '[' :: (("PostFlows_FONT_RESTORE]").toList ++ '\n' ::
        (fieldLine pOriginalFont u1 ++ '\n' :: (fieldLine pOriginalStyle u2 ++ '\n' ::
          (fieldLine pReplacedWith (u3 ++ '|' :: u4) ++ '\n' ::
            (fieldLine pTimestamp u5 ++ '\n' ::
              (fieldLine pRestoreId u6 ++ '\n' :: closeMarker)))))) := rfl

/-- A tag body is nonempty. -/
theorem tagBody_ne_nil (u1 u2 u3 u4 u5 u6 : List Char) :
    tagBody u1 u2 u3 u4 u5 u6 ≠ [] := by
  rw [tagBody_eq_cons]
  exact List.cons_ne_nil _ _

/-- A tag body starts with a non-whitespace character. -/
theorem headNonspace_tagBody (u1 u2 u3 u4 u5 u6 : List Char) :
    headNonspace (tagBody u1 u2 u3 u4 u5 u6) = true := by
  rw [tagBody_eq_cons]
  rfl

/-- A tag body ends with a non-whitespace character. -/
theorem headNonspace_reverse_tagBody (u1 u2 u3 u4 u5 u6 : List Char) :
    headNonspace (tagBody u1 u2 u3 u4 u5 u6).reverse = true := by
  unfold tagBody
  have hne : ∀ x : List Char, ∀ r : List Char, x ++ '\n' :: r ≠ [] := by
    intro x r hx
    cases x with
    | nil => cases hx
    | cons a b => cases hx
  rw [headNonspace_reverse_append _ _ (by intro hc; cases hc)]
  rw [headNonspace_reverse_cons _ _ (hne _ _)]
  rw [headNonspace_reverse_append _ _ (by intro hc; cases hc)]
  rw [headNonspace_reverse_cons _ _ (hne _ _)]
  rw [headNonspace_reverse_append _ _ (by intro hc; cases hc)]
  rw [headNonspace_reverse_cons _ _ (hne _ _)]
  rw [headNonspace_reverse_append _ _ (by intro hc; cases hc)]
  rw [headNonspace_reverse_cons _ _ (hne _ _)]
  rw [headNonspace_reverse_append _ _ (by intro hc; cases hc)]
  rw [headNonspace_reverse_cons _ _ (hne _ _)]
  rw [headNonspace_reverse_append _ _ (by intro hc; cases hc)]
  rw [headNonspace_reverse_cons _ _ (by intro hc; cases hc)]
  decide

/-- The opening marker does not occur anywhere in a tag body past its first
character: field values are marker-free and every line of the wire format
other than the first differs from the marker. -/
theorem tagBody_tail_no_open (u1 u2 u3 u4 u5 u6 : List Char)
    (h1 : cleanField u1 = true) (h2 : cleanField u2 = true)
    (h3 : cleanField u3 = true) (h4 : cleanField u4 = true)
    (h5 : cleanField u5 = true) (h6 : cleanField u6 = true) :
    containsSub openMarker (("PostFlows_FONT_RESTORE]").toList ++ '\n' ::
      (fieldLine pOriginalFont u1 ++ '\n' :: (fieldLine pOriginalStyle u2 ++ '\n' ::
        (fieldLine pReplacedWith (u3 ++ '|' :: u4) ++ '\n' ::
          (fieldLine pTimestamp u5 ++ '\n' ::
            (fieldLine pRestoreId u6 ++ '\n' :: closeMarker)))))) = false := by
  have hne : openMarker ≠ [] := by decide
  have hnl : '\n' ∉ openMarker := by decide
  have hv1 := (cleanField_spec u1 h1).2.2.2.2.2.1
  have hv2 := (cleanField_spec u2 h2).2.2.2.2.2.1
  have hv3 := (cleanField_spec u3 h3).2.2.2.2.2.1
  have hv4 := (cleanField_spec u4 h4).2.2.2.2.2.1
  have hv5 := (cleanField_spec u5 h5).2.2.2.2.2.1
  have hv6 := (cleanField_spec u6 h6).2.2.2.2.2.1
  have hv34 : containsSub openMarker (u3 ++ '|' :: u4) = false :=
    containsSub_append_cons_eq_false openMarker u3 u4 '|' hne (by decide) hv3 hv4
  apply containsSub_append_cons_eq_false openMarker _ _ '\n' hne hnl (by decide)
  apply containsSub_append_cons_eq_false openMarker _ _ '\n' hne hnl
    (containsSub_fieldLine_false openMarker _ u1 (by decide) (by decide) hv1)
  apply containsSub_append_cons_eq_false openMarker _ _ '\n' hne hnl
    (containsSub_fieldLine_false openMarker _ u2 (by decide) (by decide) hv2)
  apply containsSub_append_cons_eq_false openMarker _ _ '\n' hne hnl
    (containsSub_fieldLine_false openMarker _ _ (by decide) (by decide) hv34)
  apply containsSub_append_cons_eq_false openMarker _ _ '\n' hne hnl
    (containsSub_fieldLine_false openMarker _ u5 (by decide) (by decide) hv5)
  apply containsSub_append_cons_eq_false openMarker _ _ '\n' hne hnl
    (containsSub_fieldLine_false openMarker _ u6 (by decide) (by decide) hv6)
  decide

/-- A tag body decomposes as some prefix followed by the closing marker. -/
theorem tagBody_ends_close (u1 u2 u3 u4 u5 u6 : List Char) :
    ∃ W, tagBody u1 u2 u3 u4 u5 u6 = W ++ closeMarker := by
  refine ⟨openMarker ++ '\n' :: (fieldLine pOriginalFont u1 ++ '\n' ::
    (fieldLine pOriginalStyle u2 ++ '\n' ::
      (fieldLine pReplacedWith (u3 ++ '|' :: u4) ++ '\n' ::
        (fieldLine pTimestamp u5 ++ '\n' ::
          (fieldLine pRestoreId u6 ++ ['\n']))))), ?_⟩
  simp only [tagBody, List.append_assoc, List.cons_append, List.nil_append]

/-- A tag body never begins inside the tail of another tag body: at a proper
nonempty suffix of a tag body, whatever follows, the opening marker cannot
start. -/
theorem tagBody_proper_suffix_no_open (u1 u2 u3 u4 u5 u6 : List Char)
    (h1 : cleanField u1 = true) (h2 : cleanField u2 = true)
    (h3 : cleanField u3 = true) (h4 : cleanField u4 = true)
    (h5 : cleanField u5 = true) (h6 : cleanField u6 = true)
    (t Z : List Char) (ht : t <:+ tagBody u1 u2 u3 u4 u5 u6) (htne : t ≠ [])
    (hNe : t ≠ tagBody u1 u2 u3 u4 u5 u6)
    (hpre : openMarker <+: t ++ Z) : False := by
  by_cases hlen : openMarker.length ≤ t.length
  · have hot : openMarker <+: t :=
      List.prefix_of_prefix_length_le hpre (List.prefix_append t Z) hlen
    rw [tagBody_eq_cons] at ht
    rcases List.suffix_cons_iff.mp ht with heq | hts
    · exact hNe (by rw [tagBody_eq_cons]; exact heq)
    · have hocc := containsSub_of_prefix_suffix openMarker t _ hot hts
      rw [tagBody_tail_no_open u1 u2 u3 u4 u5 u6 h1 h2 h3 h4 h5 h6] at hocc
      cases hocc
  · have htp : t <+: openMarker :=
      List.prefix_of_prefix_length_le (List.prefix_append t Z) hpre (by omega)
    obtain ⟨W, hW⟩ := tagBody_ends_close u1 u2 u3 u4 u5 u6
    rw [hW] at ht
    have hclose : closeMarker.length = 25 := by decide
    have hopen : openMarker.length = 24 := by decide
    have htc : t <:+ closeMarker := by
      rcases suffix_append_cases t W closeMarker ht with hc | ⟨t2, ht2, heq⟩
      · exact hc
      · exfalso
        have hl := congrArg List.length heq
        rw [List.length_append, hclose] at hl
        have hlt : t.length ≤ openMarker.length := htp.length_le
        omega
    have hdrop := List.suffix_iff_eq_drop.mp htc
    have htl0 : t.length ≠ 0 := fun hz => htne (List.eq_nil_of_length_eq_zero hz)
    have hlt2 : closeMarker.length - t.length < closeMarker.length := by
      have := htc.length_le
      omega
    have hdec : ∀ n, n < closeMarker.length →
        ((closeMarker.drop n).isPrefixOf openMarker) = false := by decide
    have hfin := hdec _ hlt2
    rw [← hdrop] at hfin
    rw [(isPrefixOf_eq_true_iff _ _).mpr htp] at hfin
    cases hfin

/-- A tag body with well-formed fields that begins an instantiated tag body
followed by arbitrary text carries exactly the same six field values. -/
theorem tagBody_prefix_eq (u1 u2 u3 u4 u5 u6 v1 v2 v3 v4 v5 v6 Z : List Char)
    (hu1 : cleanField u1 = true) (hu2 : cleanField u2 = true)
    (hu3 : cleanField u3 = true) (hu4 : cleanField u4 = true)
    (hu5 : cleanField u5 = true) (hu6 : cleanField u6 = true)
    (hv1 : cleanField v1 = true) (hv2 : cleanField v2 = true)
    (hv3 : cleanField v3 = true) (hv4 : cleanField v4 = true)
    (hv5 : cleanField v5 = true) (hv6 : cleanField v6 = true)
    (h : tagBody v1 v2 v3 v4 v5 v6 <+: tagBody u1 u2 u3 u4 u5 u6 ++ Z) :
    v1 = u1 ∧ v2 = u2 ∧ v3 = u3 ∧ v4 = u4 ∧ v5 = u5 ∧ v6 = u6 := by
  have hstep : ∀ (p a b ta tb : List Char), '\n' ∉ a → '\n' ∉ b →
      (fieldLine p a ++ '\n' :: ta <+: fieldLine p b ++ '\n' :: tb) →
      a = b ∧ (ta <+: tb) := by
    intro p a b ta tb hna hnb hh
    rw [fieldLine_eq p a, fieldLine_eq p b] at hh
    simp only [List.append_assoc] at hh
    have hh2 := (List.prefix_append_right_inj p).mp hh
    have hh3 := (List.prefix_append_right_inj [':', ' ']).mp hh2
    exact seg_prefix_eq a b ta tb hna hnb hh3
  have hnu1 := (cleanField_spec u1 hu1).2.2.2.1
  have hnu2 := (cleanField_spec u2 hu2).2.2.2.1
  have hnu3 := (cleanField_spec u3 hu3).2.2.2.1
  have hnu4 := (cleanField_spec u4 hu4).2.2.2.1
  have hnu5 := (cleanField_spec u5 hu5).2.2.2.1
  have hnu6 := (cleanField_spec u6 hu6).2.2.2.1
  have hnv1 := (cleanField_spec v1 hv1).2.2.2.1
  have hnv2 := (cleanField_spec v2 hv2).2.2.2.1
  have hnv3 := (cleanField_spec v3 hv3).2.2.2.1
  have hnv4 := (cleanField_spec v4 hv4).2.2.2.1
  have hnv5 := (cleanField_spec v5 hv5).2.2.2.1
  have hnv6 := (cleanField_spec v6 hv6).2.2.2.1
  have hbu3 := (cleanField_spec u3 hu3).2.2.2.2.1
  have hbv3 := (cleanField_spec v3 hv3).2.2.2.2.1
  have hnv34 : '\n' ∉ v3 ++ '|' :: v4 := by
    intro hm
    rcases List.mem_append.mp hm with hm2 | hm2
    · exact hnv3 hm2
    · rcases List.mem_cons.mp hm2 with hm3 | hm3
      · exact absurd hm3 (by decide)
      · exact hnv4 hm3
  have hnu34 : '\n' ∉ u3 ++ '|' :: u4 := by
    intro hm
    rcases List.mem_append.mp hm with hm2 | hm2
    · exact hnu3 hm2
    · rcases List.mem_cons.mp hm2 with hm3 | hm3
      · exact absurd hm3 (by decide)
      · exact hnu4 hm3
  simp only [tagBody, List.append_assoc, List.cons_append] at h
  have h0 := (List.prefix_append_right_inj openMarker).mp h
  obtain ⟨-, hl1⟩ := List.cons_prefix_cons.mp h0
  obtain ⟨e1, hl2⟩ := hstep _ _ _ _ _ hnv1 hnu1 hl1
  obtain ⟨e2, hl3⟩ := hstep _ _ _ _ _ hnv2 hnu2 hl2
  obtain ⟨e34, hl4⟩ := hstep _ _ _ _ _ hnv34 hnu34 hl3
  obtain ⟨e3, e4⟩ := bar_append_inj v3 v4 u3 u4 hbv3 hbu3 e34
  obtain ⟨e5, hl5⟩ := hstep _ _ _ _ _ hnv5 hnu5 hl4
  obtain ⟨e6, -⟩ := hstep _ _ _ _ _ hnv6 hnu6 hl5
  exact ⟨e1, e2, e3, e4, e5, e6⟩

/-- A tag body never begins at a newline. -/
theorem tag_not_prefix_nl (v1 v2 v3 v4 v5 v6 B : List Char) :
    (tagBody v1 v2 v3 v4 v5 v6).isPrefixOf ('\n' :: B) = false := by
  cases hp : (tagBody v1 v2 v3 v4 v5 v6).isPrefixOf ('\n' :: B) with
  | false => rfl
  | true =>
    exfalso
    have h := (isPrefixOf_eq_true_iff _ _).mp hp
    rw [tagBody_eq_cons] at h
    exact absurd (List.cons_prefix_cons.mp h).1 (by decide)

/-- A different tag body never begins at any position of a tag body, whatever
follows it. -/
theorem tag_not_prefix_of_tag_suffix
    (u1 u2 u3 u4 u5 u6 v1 v2 v3 v4 v5 v6 : List Char)
    (hu1 : cleanField u1 = true) (hu2 : cleanField u2 = true)
    (hu3 : cleanField u3 = true) (hu4 : cleanField u4 = true)
    (hu5 : cleanField u5 = true) (hu6 : cleanField u6 = true)
    (hv1 : cleanField v1 = true) (hv2 : cleanField v2 = true)
    (hv3 : cleanField v3 = true) (hv4 : cleanField v4 = true)
    (hv5 : cleanField v5 = true) (hv6 : cleanField v6 = true)
    (hne : tagBody v1 v2 v3 v4 v5 v6 ≠ tagBody u1 u2 u3 u4 u5 u6)
    (t Z : List Char) (ht : t <:+ tagBody u1 u2 u3 u4 u5 u6) (htne : t ≠ []) :
    (tagBody v1 v2 v3 v4 v5 v6).isPrefixOf (t ++ Z) = false := by
  cases hp : (tagBody v1 v2 v3 v4 v5 v6).isPrefixOf (t ++ Z) with
  | false => rfl
  | true =>
    exfalso
    have h := (isPrefixOf_eq_true_iff _ _).mp hp
    by_cases hfull : t = tagBody u1 u2 u3 u4 u5 u6
    · subst hfull
      obtain ⟨e1, e2, e3, e4, e5, e6⟩ :=
        tagBody_prefix_eq u1 u2 u3 u4 u5 u6 v1 v2 v3 v4 v5 v6 Z
          hu1 hu2 hu3 hu4 hu5 hu6 hv1 hv2 hv3 hv4 hv5 hv6 h
      exact hne (by rw [e1, e2, e3, e4, e5, e6])
    · have hom : openMarker <+: tagBody v1 v2 v3 v4 v5 v6 := by
        unfold tagBody
        exact List.prefix_append _ _
      exact tagBody_proper_suffix_no_open u1 u2 u3 u4 u5 u6
        hu1 hu2 hu3 hu4 hu5 hu6 t Z ht htne hfull (hom.trans h)

/-- Stepping a newline-headed suffix over one newline-free block: it either
starts right at the block's separator or lies further right. -/
theorem nl_suffix_step (X R t : List Char) (hX : '\n' ∉ X)
    (h : ('\n' :: t) <:+ X ++ '\n' :: R) :
    t = R ∨ ('\n' :: t) <:+ R := by
  rcases suffix_append_cases _ X ('\n' :: R) h with hc | ⟨t2, ht2, heq⟩
  · rcases List.suffix_cons_iff.mp hc with he | hs
    · left
      exact ((List.cons.injEq _ _ _ _).mp he).2
    · right
      exact hs
  · cases t2 with
    | nil =>
      rw [List.nil_append] at heq
      left
      exact ((List.cons.injEq _ _ _ _).mp heq).2
    | cons c t3 =>
      exfalso
      rw [List.cons_append] at heq
      obtain ⟨hc2, -⟩ := (List.cons.injEq _ _ _ _).mp heq
      apply hX
      apply ht2.subset
      rw [← hc2]
      exact List.mem_cons_self _ _

/-- Every newline inside a tag body with well-formed fields is followed by a
nonempty run starting with a non-whitespace character. -/
theorem tagBody_nl_suffix_spec (u1 u2 u3 u4 u5 u6 : List Char)
    (h1 : cleanField u1 = true) (h2 : cleanField u2 = true)
    (h3 : cleanField u3 = true) (h4 : cleanField u4 = true)
    (h5 : cleanField u5 = true) (h6 : cleanField u6 = true)
    (t : List Char) (ht : ('\n' :: t) <:+ tagBody u1 u2 u3 u4 u5 u6) :
    t ≠ [] ∧ headNonspace t = true := by
  have hnl : ∀ (p v : List Char), '\n' ∉ p ++ [':', ' '] → '\n' ∉ v →
      '\n' ∉ fieldLine p v := by
    intro p v hp hv hm
    rw [fieldLine_eq] at hm
    rcases List.mem_append.mp hm with hm2 | hm2
    · exact hp hm2
    · exact hv hm2
  have hn1 := (cleanField_spec u1 h1).2.2.2.1
  have hn2 := (cleanField_spec u2 h2).2.2.2.1
  have hn3 := (cleanField_spec u3 h3).2.2.2.1
  have hn4 := (cleanField_spec u4 h4).2.2.2.1
  have hn5 := (cleanField_spec u5 h5).2.2.2.1
  have hn6 := (cleanField_spec u6 h6).2.2.2.1
  have hn34 : '\n' ∉ u3 ++ '|' :: u4 := by
    intro hm
    rcases List.mem_append.mp hm with hm2 | hm2
    · exact hn3 hm2
    · rcases List.mem_cons.mp hm2 with hm3 | hm3
      · exact absurd hm3 (by decide)
      · exact hn4 hm3
  have hfl : ∀ (p v R : List Char), headNonspace (p ++ [':', ' ']) = true →
      headNonspace (fieldLine p v ++ '\n' :: R) = true := by
    intro p v R hhp
    rw [fieldLine_eq, List.append_assoc]
    rw [headNonspace_append (p ++ [':', ' ']) _ (by simp)]
    exact hhp
  unfold tagBody at ht
  rcases nl_suffix_step openMarker _ t (by decide) ht with he | ht2
  · rw [he]
    exact ⟨append_cons_ne_nil _ _ _, hfl _ u1 _ (by decide)⟩
  rcases nl_suffix_step (fieldLine pOriginalFont u1) _ t
      (hnl _ _ (by decide) hn1) ht2 with he | ht3
  · rw [he]
    exact ⟨append_cons_ne_nil _ _ _, hfl _ u2 _ (by decide)⟩
  rcases nl_suffix_step (fieldLine pOriginalStyle u2) _ t
      (hnl _ _ (by decide) hn2) ht3 with he | ht4
  · rw [he]
    exact ⟨append_cons_ne_nil _ _ _, hfl _ _ _ (by decide)⟩
  rcases nl_suffix_step (fieldLine pReplacedWith (u3 ++ '|' :: u4)) _ t
      (hnl _ _ (by decide) hn34) ht4 with he | ht5
  · rw [he]
    exact ⟨append_cons_ne_nil _ _ _, hfl _ u5 _ (by decide)⟩
  rcases nl_suffix_step (fieldLine pTimestamp u5) _ t
      (hnl _ _ (by decide) hn5) ht5 with he | ht6
  · rw [he]
    exact ⟨append_cons_ne_nil _ _ _, hfl _ u6 _ (by decide)⟩
  rcases nl_suffix_step (fieldLine pRestoreId u6) _ t
      (hnl _ _ (by decide) hn6) ht6 with he | ht7
  · rw [he]
    exact ⟨by decide, by decide⟩
  · exfalso
    have := ht7.subset (List.mem_cons_self _ _)
    exact absurd this (by decide)

/-- Inside a tag body followed by any text whose own newline positions are
collapse-free, no newline starts the collapse pattern. -/
theorem tagBody_ctx_nl_matchNone (u1 u2 u3 u4 u5 u6 : List Char)
    (h1 : cleanField u1 = true) (h2 : cleanField u2 = true)
    (h3 : cleanField u3 = true) (h4 : cleanField u4 = true)
    (h5 : cleanField u5 = true) (h6 : cleanField u6 = true)
    (Z : List Char)
    (hZ : ∀ s, ('\n' :: s) <:+ Z → matchTripleNL s = none) :
    ∀ s, ('\n' :: s) <:+ tagBody u1 u2 u3 u4 u5 u6 ++ Z →
      matchTripleNL s = none := by
  intro s hs
  rcases suffix_append_cases _ _ _ hs with hc | ⟨t, ht, heq⟩
  · exact hZ s hc
  · cases t with
    | nil =>
      rw [List.nil_append] at heq
      exact hZ s (by rw [heq])
    | cons c t2 =>
      rw [List.cons_append] at heq
      obtain ⟨hc2, hts⟩ := (List.cons.injEq _ _ _ _).mp heq
      rw [← hc2] at ht
      obtain ⟨htne, hhd⟩ :=
        tagBody_nl_suffix_spec u1 u2 u3 u4 u5 u6 h1 h2 h3 h4 h5 h6 t2 ht
      rw [hts]
      apply matchTripleNL_none_of_headNonspace
      rw [headNonspace_append t2 Z htne]
      exact hhd

/-- Unpacking of the tag well-formedness predicate. -/
theorem cleanTag_spec (o s rf rs rid ts : List Char)
    (h : cleanTag o s rf rs rid ts = true) :
    cleanField o = true ∧ cleanField s = true ∧ cleanField rf = true ∧
    cleanField rs = true ∧ cleanField rid = true ∧ cleanField ts = true := by
  simp only [cleanTag, Bool.and_eq_true] at h
  tauto

/-- C3: removing the middle one of three consecutive embedded tags (the layout
produced by repeated replacement runs: tags joined by single newlines) excises
exactly the middle tag's byte span, leaving the first and third tags'
encodings bit-identical with the separating blank line between them. This is
the amended frame property; the claim's stronger clause that removal leaves
ALL non-tag content of the field unchanged is refuted by
`C3_counterexample_nontag_content_altered`: the final `.strip()` of
`remove_specific_restore_tag` (src line 832) also deletes leading and trailing
whitespace that never belonged to any tag. -/
theorem C3_remove_middle_of_three
    (a1 a2 a3 a4 a5 a6 b1 b2 b3 b4 b5 b6 c1 c2 c3 c4 c5 c6 : List Char)
    (hA : cleanTag a1 a2 a3 a4 a5 a6 = true)
    (hB : cleanTag b1 b2 b3 b4 b5 b6 = true)
    (hC : cleanTag c1 c2 c3 c4 c5 c6 = true)
    (hBA : create_restore_tag b1 b2 b3 b4 b5 b6 ≠
      create_restore_tag a1 a2 a3 a4 a5 a6)
    (hBC : create_restore_tag b1 b2 b3 b4 b5 b6 ≠
      create_restore_tag c1 c2 c3 c4 c5 c6) :
    remove_specific_restore_tag
        (create_restore_tag a1 a2 a3 a4 a5 a6 ++ '\n' ::
          (create_restore_tag b1 b2 b3 b4 b5 b6 ++ '\n' ::
            create_restore_tag c1 c2 c3 c4 c5 c6))
        (create_restore_tag b1 b2 b3 b4 b5 b6) =
      create_restore_tag a1 a2 a3 a4 a5 a6 ++ '\n' :: '\n' ::
        create_restore_tag c1 c2 c3 c4 c5 c6 := by
  obtain ⟨ha1, ha2, ha3, ha4, ha5, ha6⟩ := cleanTag_spec a1 a2 a3 a4 a5 a6 hA
  obtain ⟨hb1, hb2, hb3, hb4, hb5, hb6⟩ := cleanTag_spec b1 b2 b3 b4 b5 b6 hB
  obtain ⟨hq1, hq2, hq3, hq4, hq5, hq6⟩ := cleanTag_spec c1 c2 c3 c4 c5 c6 hC
  rw [create_restore_tag_eq_tagBody b1 b2 b3 b4 b5 b6,
    create_restore_tag_eq_tagBody a1 a2 a3 a4 a5 a6] at hBA
  rw [create_restore_tag_eq_tagBody b1 b2 b3 b4 b5 b6,
    create_restore_tag_eq_tagBody c1 c2 c3 c4 c5 c6] at hBC
  rw [create_restore_tag_eq_tagBody a1 a2 a3 a4 a5 a6,
    create_restore_tag_eq_tagBody b1 b2 b3 b4 b5 b6,
    create_restore_tag_eq_tagBody c1 c2 c3 c4 c5 c6]
  have hTBne : tagBody b1 b2 b3 b4 b6 b5 ≠ [] := tagBody_ne_nil _ _ _ _ _ _
  have hocc : containsSub (tagBody b1 b2 b3 b4 b6 b5)
      (tagBody a1 a2 a3 a4 a6 a5 ++ '\n' ::
        (tagBody b1 b2 b3 b4 b6 b5 ++ '\n' :: tagBody c1 c2 c3 c4 c6 c5)) =
      true := by
    apply containsSub_of_prefix_suffix _
      (tagBody b1 b2 b3 b4 b6 b5 ++ '\n' :: tagBody c1 c2 c3 c4 c6 c5) _
      (List.prefix_append _ _)
    exact ⟨tagBody a1 a2 a3 a4 a6 a5 ++ ['\n'], by simp [List.append_assoc]⟩
  have hs1 : ∀ s, s <:+ tagBody a1 a2 a3 a4 a6 a5 ++ ['\n'] → s ≠ [] →
      (tagBody b1 b2 b3 b4 b6 b5).isPrefixOf
        (s ++ (tagBody b1 b2 b3 b4 b6 b5 ++ '\n' ::
          tagBody c1 c2 c3 c4 c6 c5)) = false := by
    intro s hs hsne
    rcases suffix_append_cases s _ ['\n'] hs with hcc | ⟨t, ht, heq⟩
    · rcases List.suffix_cons_iff.mp hcc with he | hs2
      · rw [he, List.singleton_append]
        exact tag_not_prefix_nl _ _ _ _ _ _ _
      · exact absurd (List.suffix_nil.mp hs2) hsne
    · by_cases htnil : t = []
      · rw [htnil, List.nil_append] at heq
        rw [heq, List.singleton_append]
        exact tag_not_prefix_nl _ _ _ _ _ _ _
      · rw [heq, List.append_assoc, List.singleton_append]
        exact tag_not_prefix_of_tag_suffix a1 a2 a3 a4 a6 a5 b1 b2 b3 b4 b6 b5
          ha1 ha2 ha3 ha4 ha6 ha5 hb1 hb2 hb3 hb4 hb6 hb5 hBA t _ ht htnil
  have hrep1 : pyReplace
      ((tagBody a1 a2 a3 a4 a6 a5 ++ ['\n']) ++
        (tagBody b1 b2 b3 b4 b6 b5 ++ '\n' :: tagBody c1 c2 c3 c4 c6 c5))
      (tagBody b1 b2 b3 b4 b6 b5) [] =
      (tagBody a1 a2 a3 a4 a6 a5 ++ ['\n']) ++
        pyReplace (tagBody b1 b2 b3 b4 b6 b5 ++ '\n' ::
          tagBody c1 c2 c3 c4 c6 c5) (tagBody b1 b2 b3 b4 b6 b5) [] :=
    pyReplace_append_no_occ _ _ _ _ hTBne hs1
  have hrep2 : pyReplace
      (tagBody b1 b2 b3 b4 b6 b5 ++ '\n' :: tagBody c1 c2 c3 c4 c6 c5)
      (tagBody b1 b2 b3 b4 b6 b5) [] =
      [] ++ pyReplace ('\n' :: tagBody c1 c2 c3 c4 c6 c5)
        (tagBody b1 b2 b3 b4 b6 b5) [] :=
    pyReplace_head_match _ _ _ hTBne
  have hs3 : ∀ s, s <:+ '\n' :: tagBody c1 c2 c3 c4 c6 c5 → s ≠ [] →
      (tagBody b1 b2 b3 b4 b6 b5).isPrefixOf s = false := by
    intro s hs hsne
    rcases List.suffix_cons_iff.mp hs with he | hs2
    · rw [he]
      exact tag_not_prefix_nl _ _ _ _ _ _ _
    · have hres := tag_not_prefix_of_tag_suffix c1 c2 c3 c4 c6 c5
        b1 b2 b3 b4 b6 b5 hq1 hq2 hq3 hq4 hq6 hq5 hb1 hb2 hb3 hb4 hb6 hb5
        hBC s [] hs2 hsne
      rw [List.append_nil] at hres
      exact hres
  have hrep3 : pyReplace ('\n' :: tagBody c1 c2 c3 c4 c6 c5)
      (tagBody b1 b2 b3 b4 b6 b5) [] = '\n' :: tagBody c1 c2 c3 c4 c6 c5 :=
    pyReplace_no_occ _ _ _ hTBne hs3
  have hW : tagBody a1 a2 a3 a4 a6 a5 ++ '\n' ::
      (tagBody b1 b2 b3 b4 b6 b5 ++ '\n' :: tagBody c1 c2 c3 c4 c6 c5) =
      (tagBody a1 a2 a3 a4 a6 a5 ++ ['\n']) ++
        (tagBody b1 b2 b3 b4 b6 b5 ++ '\n' :: tagBody c1 c2 c3 c4 c6 c5) := by
    simp [List.append_assoc]
  have hrep : pyReplace
      (tagBody a1 a2 a3 a4 a6 a5 ++ '\n' ::
        (tagBody b1 b2 b3 b4 b6 b5 ++ '\n' :: tagBody c1 c2 c3 c4 c6 c5))
      (tagBody b1 b2 b3 b4 b6 b5) [] =
      tagBody a1 a2 a3 a4 a6 a5 ++ '\n' :: '\n' ::
        tagBody c1 c2 c3 c4 c6 c5 := by
    rw [hW, hrep1, hrep2, hrep3]
    simp [List.append_assoc]
  have hcolZ : ∀ s, ('\n' :: s) <:+
      ('\n' :: '\n' :: tagBody c1 c2 c3 c4 c6 c5) → matchTripleNL s = none := by
    intro s hs
    rcases List.suffix_cons_iff.mp hs with he | hs2
    · rw [((List.cons.injEq _ _ _ _).mp he).2]
      exact matchTripleNL_single_nl _ (headNonspace_tagBody _ _ _ _ _ _)
    · rcases List.suffix_cons_iff.mp hs2 with he | hs3
      · rw [((List.cons.injEq _ _ _ _).mp he).2]
        exact matchTripleNL_none_of_headNonspace _
          (headNonspace_tagBody _ _ _ _ _ _)
      · exact matchTripleNL_none_of_headNonspace s
          (tagBody_nl_suffix_spec c1 c2 c3 c4 c6 c5
            hq1 hq2 hq3 hq4 hq6 hq5 s hs3).2
  have hcol : pyCollapseSub (tagBody a1 a2 a3 a4 a6 a5 ++ '\n' :: '\n' ::
      tagBody c1 c2 c3 c4 c6 c5) =
      tagBody a1 a2 a3 a4 a6 a5 ++ '\n' :: '\n' ::
        tagBody c1 c2 c3 c4 c6 c5 := by
    apply pyCollapseSub_eq_self
    exact tagBody_ctx_nl_matchNone a1 a2 a3 a4 a6 a5
      ha1 ha2 ha3 ha4 ha6 ha5 _ hcolZ
  have hstrip : pyStrip (tagBody a1 a2 a3 a4 a6 a5 ++ '\n' :: '\n' ::
      tagBody c1 c2 c3 c4 c6 c5) =
      tagBody a1 a2 a3 a4 a6 a5 ++ '\n' :: '\n' ::
        tagBody c1 c2 c3 c4 c6 c5 := by
    apply pyStrip_eq_self_of_ends
    · rw [headNonspace_append _ _ (tagBody_ne_nil _ _ _ _ _ _)]
      exact headNonspace_tagBody _ _ _ _ _ _
    · have hsp : tagBody a1 a2 a3 a4 a6 a5 ++ '\n' :: '\n' ::
          tagBody c1 c2 c3 c4 c6 c5 =
          (tagBody a1 a2 a3 a4 a6 a5 ++ ['\n', '\n']) ++
            tagBody c1 c2 c3 c4 c6 c5 := by
        simp [List.append_assoc]
      rw [hsp, headNonspace_reverse_append _ _ (tagBody_ne_nil _ _ _ _ _ _)]
      exact headNonspace_reverse_tagBody _ _ _ _ _ _
  unfold remove_specific_restore_tag
  rw [if_pos hocc, hrep, hcol, hstrip]

/-- A tag body never begins at a character other than an opening bracket. -/
theorem tag_not_prefix_cons (v1 v2 v3 v4 v5 v6 : List Char) (c : Char)
    (B : List Char) (hc : c ≠ '[') :
    (tagBody v1 v2 v3 v4 v5 v6).isPrefixOf (c :: B) = false := by
  cases hp : (tagBody v1 v2 v3 v4 v5 v6).isPrefixOf (c :: B) with
  | false => rfl
  | true =>
    exfalso
    have h := (isPrefixOf_eq_true_iff _ _).mp hp
    rw [tagBody_eq_cons] at h
    exact hc ((List.cons_prefix_cons.mp h).1).symm

/-- Removing the first of two distinct well-formed tags from a field that
starts with an indented non-tag line: the replacement excises the tag, no
newline collapse fires, and the final strip deletes the indentation of the
non-tag line. -/
theorem remove_first_tag_after_indented_line
    (a1 a2 a3 a4 a5 a6 b1 b2 b3 b4 b5 b6 : List Char)
    (hA : cleanTag a1 a2 a3 a4 a5 a6 = true)
    (hB : cleanTag b1 b2 b3 b4 b5 b6 = true)
    (hAB : create_restore_tag a1 a2 a3 a4 a5 a6 ≠
      create_restore_tag b1 b2 b3 b4 b5 b6) :
    remove_specific_restore_tag
        (("   lead\n").toList ++
          (create_restore_tag a1 a2 a3 a4 a5 a6 ++ '\n' ::
            create_restore_tag b1 b2 b3 b4 b5 b6))
        (create_restore_tag a1 a2 a3 a4 a5 a6) =
      ("lead\n\n").toList ++ create_restore_tag b1 b2 b3 b4 b5 b6 := by
  obtain ⟨ha1, ha2, ha3, ha4, ha5, ha6⟩ := cleanTag_spec _ _ _ _ _ _ hA
  obtain ⟨hb1, hb2, hb3, hb4, hb5, hb6⟩ := cleanTag_spec _ _ _ _ _ _ hB
  rw [create_restore_tag_eq_tagBody a1 a2 a3 a4 a5 a6,
    create_restore_tag_eq_tagBody b1 b2 b3 b4 b5 b6] at hAB ⊢
  have hTAne : tagBody a1 a2 a3 a4 a6 a5 ≠ [] := tagBody_ne_nil _ _ _ _ _ _
  have hocc : containsSub (tagBody a1 a2 a3 a4 a6 a5)
      (("   lead\n").toList ++ (tagBody a1 a2 a3 a4 a6 a5 ++ '\n' ::
        tagBody b1 b2 b3 b4 b6 b5)) = true := by
    apply containsSub_of_prefix_suffix _
      (tagBody a1 a2 a3 a4 a6 a5 ++ '\n' :: tagBody b1 b2 b3 b4 b6 b5) _
      (List.prefix_append _ _)
    exact ⟨("   lead\n").toList, rfl⟩
  have hlead : ∀ s, s <:+ ("   lead\n").toList → s ≠ [] →
      (tagBody a1 a2 a3 a4 a6 a5).isPrefixOf
        (s ++ (tagBody a1 a2 a3 a4 a6 a5 ++ '\n' ::
          tagBody b1 b2 b3 b4 b6 b5)) = false := by
    intro s hs hsne
    cases s with
    | nil => exact absurd rfl hsne
    | cons ch s2 =>
      have hch : ch ∈ ("   lead\n").toList :=
        hs.subset (List.mem_cons_self _ _)
      rw [List.cons_append]
      apply tag_not_prefix_cons
      intro he
      rw [he] at hch
      exact absurd hch (by decide)
  have hrest : ∀ s, s <:+ '\n' :: tagBody b1 b2 b3 b4 b6 b5 → s ≠ [] →
      (tagBody a1 a2 a3 a4 a6 a5).isPrefixOf s = false := by
    intro s hs hsne
    rcases List.suffix_cons_iff.mp hs with he | hs2
    · rw [he]
      exact tag_not_prefix_nl _ _ _ _ _ _ _
    · have hres := tag_not_prefix_of_tag_suffix b1 b2 b3 b4 b6 b5
        a1 a2 a3 a4 a6 a5 hb1 hb2 hb3 hb4 hb6 hb5 ha1 ha2 ha3 ha4 ha6 ha5
        hAB s [] hs2 hsne
      rw [List.append_nil] at hres
      exact hres
  have hrep : pyReplace
      (("   lead\n").toList ++ (tagBody a1 a2 a3 a4 a6 a5 ++ '\n' ::
        tagBody b1 b2 b3 b4 b6 b5)) (tagBody a1 a2 a3 a4 a6 a5) [] =
      ("   lead\n").toList ++ '\n' :: tagBody b1 b2 b3 b4 b6 b5 := by
    rw [pyReplace_append_no_occ _ _ _ _ hTAne hlead,
      pyReplace_head_match _ _ _ hTAne,
      pyReplace_no_occ _ _ _ hTAne hrest]
    rfl
  have hshape : ("   lead\n").toList ++ '\n' :: tagBody b1 b2 b3 b4 b6 b5 =
      ("   lead").toList ++ '\n' :: ('\n' :: tagBody b1 b2 b3 b4 b6 b5) := rfl
  have hcolZ : ∀ s, ('\n' :: s) <:+
      ("   lead\n").toList ++ '\n' :: tagBody b1 b2 b3 b4 b6 b5 →
      matchTripleNL s = none := by
    intro s hs
    rw [hshape] at hs
    rcases nl_suffix_step ("   lead").toList _ s (by decide) hs with he | hs2
    · rw [he]
      exact matchTripleNL_single_nl _ (headNonspace_tagBody _ _ _ _ _ _)
    · rcases List.suffix_cons_iff.mp hs2 with he | hs3
      · rw [((List.cons.injEq _ _ _ _).mp he).2]
        exact matchTripleNL_none_of_headNonspace _
          (headNonspace_tagBody _ _ _ _ _ _)
      · exact matchTripleNL_none_of_headNonspace s
          (tagBody_nl_suffix_spec b1 b2 b3 b4 b6 b5
            hb1 hb2 hb3 hb4 hb6 hb5 s hs3).2
  have hcol : pyCollapseSub (("   lead\n").toList ++ '\n' ::
      tagBody b1 b2 b3 b4 b6 b5) =
      ("   lead\n").toList ++ '\n' :: tagBody b1 b2 b3 b4 b6 b5 :=
    pyCollapseSub_eq_self _ hcolZ
  have hstrip : pyStrip (("   lead\n").toList ++ '\n' ::
      tagBody b1 b2 b3 b4 b6 b5) =
      ("lead\n\n").toList ++ tagBody b1 b2 b3 b4 b6 b5 := by
    have h3 : ("   lead\n").toList ++ '\n' :: tagBody b1 b2 b3 b4 b6 b5 =
        ' ' :: (' ' :: (' ' :: (("lead\n\n").toList ++
          tagBody b1 b2 b3 b4 b6 b5))) := rfl
    rw [h3, pyStrip_cons_space _ _ (by decide),
      pyStrip_cons_space _ _ (by decide), pyStrip_cons_space _ _ (by decide)]
    apply pyStrip_eq_self_of_ends
    · rfl
    · rw [headNonspace_reverse_append _ _ (tagBody_ne_nil _ _ _ _ _ _)]
      exact headNonspace_reverse_tagBody _ _ _ _ _ _
  unfold remove_specific_restore_tag
  rw [if_pos hocc, hrep, hcol, hstrip]

/-- C3 counterexample: the claim that removing one embedded tag leaves all
non-tag content of the field unchanged is false. In a field consisting of an
indented non-tag line followed by two well-formed distinct tags, removing the
first tag also deletes the non-tag line's leading spaces (the `.strip()` at
src line 832), so the surviving non-tag content differs from a pure excision
of the removed tag's byte span, while the second tag's bytes do survive. -/
theorem C3_counterexample_nontag_content_altered :
    remove_specific_restore_tag
        (("   lead\n").toList ++
          (create_restore_tag ("A").toList ("B").toList ("C").toList
            ("D").toList ("E").toList ("F").toList ++
            '\n' :: create_restore_tag ("G").toList ("H").toList ("I").toList
              ("J").toList ("K").toList ("L").toList))
        (create_restore_tag ("A").toList ("B").toList ("C").toList
          ("D").toList ("E").toList ("F").toList) =
      ("lead\n\n").toList ++
        create_restore_tag ("G").toList ("H").toList ("I").toList
          ("J").toList ("K").toList ("L").toList ∧
    ("lead\n\n").toList ++
        create_restore_tag ("G").toList ("H").toList ("I").toList
          ("J").toList ("K").toList ("L").toList ≠
      ("   lead\n\n").toList ++
        create_restore_tag ("G").toList ("H").toList ("I").toList
          ("J").toList ("K").toList ("L").toList := by
  constructor
  · exact remove_first_tag_after_indented_line _ _ _ _ _ _ _ _ _ _ _ _
      (by decide) (by decide) (by decide)
  · decide

/-- Closed instance of the C3 removal theorem on three concrete distinct
tags. -/
theorem C3_witness :
    remove_specific_restore_tag
        (create_restore_tag ("A").toList ("B").toList ("C").toList ("D").toList
          ("E").toList ("F").toList ++ '\n' ::
          (create_restore_tag ("G").toList ("H").toList ("I").toList ("J").toList
            ("K").toList ("L").toList ++ '\n' ::
            create_restore_tag ("M").toList ("N").toList ("O").toList ("P").toList
              ("Q").toList ("R").toList))
        (create_restore_tag ("G").toList ("H").toList ("I").toList ("J").toList
          ("K").toList ("L").toList) =
      create_restore_tag ("A").toList ("B").toList ("C").toList ("D").toList
        ("E").toList ("F").toList ++ '\n' :: '\n' ::
        create_restore_tag ("M").toList ("N").toList ("O").toList ("P").toList
          ("Q").toList ("R").toList :=
  C3_remove_middle_of_three _ _ _ _ _ _ _ _ _ _ _ _ _ _ _ _ _ _
    (by decide) (by decide) (by decide) (by decide) (by decide)
